import Mathlib

/-!
Verification development for the Conference-Agent repository.

The subject is the LWC component
src/force-app/main/default/lwc/conferenceScheduler/conferenceScheduler.js:
its response-recovery pipeline (envelope unwrapping, structural scanning,
partial-record recovery, fragment combination), the client-side polling
logic, and the self-chaining batch coordinator described by the project
documentation.

JavaScript strings are embedded as `List Char`.  JSON values are embedded
as the inductive type `Json`; `JSON.parse` is modelled by `jsonParse` (a
fuel-indexed recursive-descent parser over the JSON grammar, with numbers
restricted to integer literals, the only numeric shape occurring in the
payloads of this development) and `JSON.stringify` by `jsonStringify`.
JavaScript truthiness is modelled by `truthy`; property access on a parsed
value by `lookupField` (later duplicate of a name wins, as in JS object
construction).
-/

set_option maxRecDepth 100000

namespace ConfAgent

/-- JSON values, as produced by the modelled JSON.parse.  Object fields
are kept in textual order; numbers are integers (the only numeric shape
appearing in this program's payloads). -/
inductive Json where
  | null : Json
  | bool (b : Bool) : Json
  | num (n : Int) : Json
  | str (s : List Char) : Json
  | arr (elems : List Json) : Json
  | obj (fields : List (List Char × Json)) : Json
deriving Repr, Inhabited

mutual

/-- Structural boolean equality on JSON values. -/
def Json.beq : Json → Json → Bool
  | Json.null, Json.null => true
  | Json.bool a, Json.bool b => a == b
  | Json.num a, Json.num b => a == b
  | Json.str a, Json.str b => a == b
  | Json.arr a, Json.arr b => Json.beqList a b
  | Json.obj a, Json.obj b => Json.beqFields a b
  | _, _ => false

/-- Structural boolean equality on lists of JSON values. -/
def Json.beqList : List Json → List Json → Bool
  | [], [] => true
  | x :: xs, y :: ys => Json.beq x y && Json.beqList xs ys
  | _, _ => false

/-- Structural boolean equality on field lists. -/
def Json.beqFields : List (List Char × Json) → List (List Char × Json) → Bool
  | [], [] => true
  | (k₁, v₁) :: xs, (k₂, v₂) :: ys => k₁ == k₂ && Json.beq v₁ v₂ && Json.beqFields xs ys
  | _, _ => false

end

mutual

theorem Json.beq_iff_eq : ∀ a b : Json, Json.beq a b = true ↔ a = b
  | Json.null, Json.null => by simp [Json.beq]
  | Json.bool _, Json.bool _ => by simp [Json.beq]
  | Json.num _, Json.num _ => by simp [Json.beq]
  | Json.str _, Json.str _ => by simp [Json.beq]
  | Json.arr x, Json.arr y => by simp [Json.beq, Json.beqList_iff_eq x y]
  | Json.obj x, Json.obj y => by simp [Json.beq, Json.beqFields_iff_eq x y]
  | Json.null, Json.bool _ | Json.null, Json.num _ | Json.null, Json.str _
  | Json.null, Json.arr _ | Json.null, Json.obj _
  | Json.bool _, Json.null | Json.bool _, Json.num _ | Json.bool _, Json.str _
  | Json.bool _, Json.arr _ | Json.bool _, Json.obj _
  | Json.num _, Json.null | Json.num _, Json.bool _ | Json.num _, Json.str _
  | Json.num _, Json.arr _ | Json.num _, Json.obj _
  | Json.str _, Json.null | Json.str _, Json.bool _ | Json.str _, Json.num _
  | Json.str _, Json.arr _ | Json.str _, Json.obj _
  | Json.arr _, Json.null | Json.arr _, Json.bool _ | Json.arr _, Json.num _
  | Json.arr _, Json.str _ | Json.arr _, Json.obj _
  | Json.obj _, Json.null | Json.obj _, Json.bool _ | Json.obj _, Json.num _
  | Json.obj _, Json.str _ | Json.obj _, Json.arr _ => by simp [Json.beq]

theorem Json.beqList_iff_eq : ∀ xs ys : List Json, Json.beqList xs ys = true ↔ xs = ys
  | [], [] => by simp [Json.beqList]
  | x :: xs, y :: ys => by
    simp [Json.beqList, Json.beq_iff_eq x y, Json.beqList_iff_eq xs ys]
  | [], _ :: _ => by simp [Json.beqList]
  | _ :: _, [] => by simp [Json.beqList]

theorem Json.beqFields_iff_eq :
    ∀ xs ys : List (List Char × Json), Json.beqFields xs ys = true ↔ xs = ys
  | [], [] => by simp [Json.beqFields]
  | (k₁, v₁) :: xs, (k₂, v₂) :: ys => by
    simp [Json.beqFields, Json.beq_iff_eq v₁ v₂, Json.beqFields_iff_eq xs ys, and_assoc]
  | [], _ :: _ => by simp [Json.beqFields]
  | _ :: _, [] => by simp [Json.beqFields]

end

instance : DecidableEq Json := fun a b =>
  decidable_of_iff (Json.beq a b = true) (Json.beq_iff_eq a b)

/-- The four whitespace characters recognised by the JSON grammar (and by
the trims performed in the component). -/
def isWsChar (c : Char) : Bool :=
  c = ' ' || c = '\t' || c = '\n' || c = '\r'

/-- Drop leading JSON whitespace. -/
def skipWs : List Char → List Char
  | [] => []
  | c :: cs => if isWsChar c then skipWs cs else c :: cs

/-- Value of a hexadecimal digit. -/
def hexVal (c : Char) : Option Nat :=
  if '0' ≤ c ∧ c ≤ '9' then some (c.toNat - '0'.toNat)
  else if 'a' ≤ c ∧ c ≤ 'f' then some (c.toNat - 'a'.toNat + 10)
  else if 'A' ≤ c ∧ c ≤ 'F' then some (c.toNat - 'A'.toNat + 10)
  else none

/-- Decoding of the single-character escapes of JSON string literals. -/
def escDecode (c : Char) : Option Char :=
  if c = '\"' then some '\"'
  else if c = '\\' then some '\\'
  else if c = '/' then some '/'
  else if c = 'b' then some (Char.ofNat 8)
  else if c = 'f' then some (Char.ofNat 12)
  else if c = 'n' then some '\n'
  else if c = 'r' then some '\r'
  else if c = 't' then some '\t'
  else none

/-- Parse the body of a JSON string literal (the opening quote already
consumed): returns the decoded characters and the input after the closing
quote.  Unescaped control characters and bad escapes are rejected, as by
JSON.parse. -/
def parseStringBody : List Char → Option (List Char × List Char)
  | [] => none
  | c :: cs =>
    if c = '\"' then some ([], cs)
    else if c = '\\' then
      match cs with
      | [] => none
      | e :: cs2 =>
        if e = 'u' then
          match cs2 with
          | h1 :: h2 :: h3 :: h4 :: cs3 =>
            (match hexVal h1, hexVal h2, hexVal h3, hexVal h4 with
             | some a, some b, some c', some d =>
               (match parseStringBody cs3 with
                | some (str, rest) =>
                  some (Char.ofNat (((a * 16 + b) * 16 + c') * 16 + d) :: str, rest)
                | none => none)
             | _, _, _, _ => none)
          | _ => none
        else
          match escDecode e with
          | some d =>
            (match parseStringBody cs2 with
             | some (str, rest) => some (d :: str, rest)
             | none => none)
          | none => none
    else if c.toNat < 32 then none
    else
      match parseStringBody cs with
      | some (str, rest) => some (c :: str, rest)
      | none => none

/-- Consume a run of decimal digits, accumulating their value. -/
def digitsVal : List Char → Nat → Nat × List Char
  | c :: cs, acc =>
    if '0' ≤ c ∧ c ≤ '9' then digitsVal cs (acc * 10 + (c.toNat - '0'.toNat))
    else (acc, c :: cs)
  | [], acc => (acc, [])

/-- Parse a JSON integer literal (optional minus, then digits with the
JSON leading-zero rule).  Fraction and exponent parts are rejected: the
payloads this development reasons about carry integer counts only. -/
def parseNumber (s : List Char) : Option (Int × List Char) :=
  let (neg, s1) := match s with
    | '-' :: cs => (true, cs)
    | cs => (false, cs)
  match s1 with
  | c :: cs =>
    if c = '0' then
      match cs with
      | d :: _ => if ('0' ≤ d ∧ d ≤ '9') ∨ d = '.' ∨ d = 'e' ∨ d = 'E' then none
                  else some (0, cs)
      | [] => some (0, [])
    else if '1' ≤ c ∧ c ≤ '9' then
      let (v, rest) := digitsVal cs (c.toNat - '0'.toNat)
      match rest with
      | d :: _ => if d = '.' ∨ d = 'e' ∨ d = 'E' then none
                  else some (if neg then -(v : Int) else (v : Int), rest)
      | [] => some (if neg then -(v : Int) else (v : Int), [])
    else none
  | [] => none

mutual

/-- Fuel-indexed recursive-descent parser for a JSON value, modelling
JSON.parse.  Returns the value and the unconsumed input. -/
def parseVal : Nat → List Char → Option (Json × List Char)
  | 0, _ => none
  | Nat.succ fuel, s =>
    match skipWs s with
    | '\x7b' :: cs =>
      (match skipWs cs with
       | '\x7d' :: rest => some (Json.obj [], rest)
       | _ => parseMembers fuel cs [])
    | '[' :: cs =>
      (match skipWs cs with
       | ']' :: rest => some (Json.arr [], rest)
       | _ => parseElems fuel cs [])
    | '\"' :: cs =>
      (match parseStringBody cs with
       | some (str, rest) => some (Json.str str, rest)
       | none => none)
    | 't' :: 'r' :: 'u' :: 'e' :: cs => some (Json.bool true, cs)
    | 'f' :: 'a' :: 'l' :: 's' :: 'e' :: cs => some (Json.bool false, cs)
    | 'n' :: 'u' :: 'l' :: 'l' :: cs => some (Json.null, cs)
    | other =>
      (match parseNumber other with
       | some (n, rest) => some (Json.num n, rest)
       | none => none)

/-- Parse the members of a JSON object after its opening brace, the
object being known non-empty. -/
def parseMembers : Nat → List Char → List (List Char × Json) →
    Option (Json × List Char)
  | 0, _, _ => none
  | Nat.succ fuel, s, acc =>
    match skipWs s with
    | '\"' :: cs =>
      (match parseStringBody cs with
       | some (k, rest) =>
         (match skipWs rest with
          | ':' :: rest2 =>
            (match parseVal fuel rest2 with
             | some (v, rest3) =>
               (match skipWs rest3 with
                | ',' :: rest4 => parseMembers fuel rest4 (acc ++ [(k, v)])
                | '\x7d' :: rest4 => some (Json.obj (acc ++ [(k, v)]), rest4)
                | _ => none)
             | none => none)
          | _ => none)
       | none => none)
    | _ => none

/-- Parse the elements of a JSON array after its opening bracket, the
array being known non-empty. -/
def parseElems : Nat → List Char → List Json → Option (Json × List Char)
  | 0, _, _ => none
  | Nat.succ fuel, s, acc =>
    match parseVal fuel s with
    | some (v, rest) =>
      (match skipWs rest with
       | ',' :: rest2 => parseElems fuel rest2 (acc ++ [v])
       | ']' :: rest2 => some (Json.arr (acc ++ [v]), rest2)
       | _ => none)
    | none => none

end

/-- The model of JSON.parse: parse one value and require only whitespace
after it; any failure (an exception in JS) is `none`. -/
def jsonParse (s : List Char) : Option Json :=
  match parseVal (2 * s.length + 2) s with
  | some (v, rest) => if skipWs rest = [] then some v else none
  | none => none

/-- Hexadecimal digit character for a value below 16. -/
def hexDigit (n : Nat) : Char :=
  if n < 10 then Char.ofNat ('0'.toNat + n) else Char.ofNat ('a'.toNat + n - 10)

/-- JSON.stringify's escaping of one character of a string. -/
def escapeJsonChar (c : Char) : List Char :=
  if c = '\"' then ['\\', '\"']
  else if c = '\\' then ['\\', '\\']
  else if c = '\n' then ['\\', 'n']
  else if c = '\r' then ['\\', 'r']
  else if c = '\t' then ['\\', 't']
  else if c.toNat = 8 then ['\\', 'b']
  else if c.toNat = 12 then ['\\', 'f']
  else if c.toNat < 32 then ['\\', 'u', '0', '0', hexDigit (c.toNat / 16), hexDigit (c.toNat % 16)]
  else [c]

/-- JSON.stringify's rendering of a string. -/
def stringifyStr (s : List Char) : List Char :=
  '\"' :: ((s.map escapeJsonChar).flatten ++ ['\"'])

/-- Join rendered pieces with commas. -/
def commaJoin : List (List Char) → List Char
  | [] => []
  | [x] => x
  | x :: xs => x ++ ',' :: commaJoin xs

mutual

/-- The model of JSON.stringify (on the values this program builds:
no undefined members, object keys in insertion order). -/
def jsonStringify : Json → List Char
  | Json.null => 'n' :: 'u' :: 'l' :: 'l' :: []
  | Json.bool true => 't' :: 'r' :: 'u' :: 'e' :: []
  | Json.bool false => 'f' :: 'a' :: 'l' :: 's' :: 'e' :: []
  | Json.num n => (toString n).toList
  | Json.str s => stringifyStr s
  | Json.arr xs => '[' :: (commaJoin (stringifyList xs) ++ [']'])
  | Json.obj fs => '\x7b' :: (commaJoin (stringifyFields fs) ++ ['\x7d'])

/-- Renderings of the elements of an array. -/
def stringifyList : List Json → List (List Char)
  | [] => []
  | x :: xs => jsonStringify x :: stringifyList xs

/-- Renderings of the fields of an object. -/
def stringifyFields : List (List Char × Json) → List (List Char)
  | [] => []
  | (k, v) :: fs => (stringifyStr k ++ ':' :: jsonStringify v) :: stringifyFields fs

end

/-- JavaScript truthiness of a JSON value. -/
def truthy : Json → Bool
  | Json.null => false
  | Json.bool b => b
  | Json.num n => decide (n ≠ 0)
  | Json.str s => decide (s ≠ [])
  | Json.arr _ => true
  | Json.obj _ => true

/-- Property access `j.k` on a parsed value: `none` models undefined
(non-objects and missing names); a repeated name takes the later value,
as in JS object construction. -/
def lookupField (j : Json) (k : List Char) : Option Json :=
  match j with
  | Json.obj fs => fs.foldl (fun r p => if p.1 = k then some p.2 else r) none
  | _ => none

/-- Truthiness of `j.k`, undefined being falsy. -/
def truthyField (j : Json) (k : List Char) : Bool :=
  match lookupField j k with
  | some v => truthy v
  | none => false

/-- Is the value a JSON array (Array.isArray)? -/
def isArr : Json → Bool
  | Json.arr _ => true
  | _ => false

/-- The elements of an array value, else `[]`. -/
def arrElems : Json → List Json
  | Json.arr xs => xs
  | _ => []

/-- `a.k || dflt` : the field's value when truthy, else the default. -/
def jsOrField (j : Json) (k : List Char) (dflt : Json) : Json :=
  match lookupField j k with
  | some v => if truthy v then v else dflt
  | none => dflt

/-! ### String helpers (includes, indexOf, trim, replace) -/

/-- Boolean prefix test (needle, haystack). -/
def prefixB : List Char → List Char → Bool
  | [], _ => true
  | _ :: _, [] => false
  | a :: as, b :: bs => a = b && prefixB as bs

/-- String.prototype.includes. -/
def containsSub (hay needle : List Char) : Bool :=
  match hay with
  | [] => needle.isEmpty
  | _ :: t => prefixB needle hay || containsSub t needle

/-- String.prototype.indexOf for a substring. -/
def indexOfSub (hay needle : List Char) : Option Nat :=
  match hay with
  | [] => if needle.isEmpty then some 0 else none
  | _ :: t =>
    if prefixB needle hay then some 0
    else (indexOfSub t needle).map (· + 1)

/-- String.prototype.trim (on the whitespace characters occurring in this
program's payloads). -/
def jsTrim (s : List Char) : List Char :=
  ((s.dropWhile (isWsChar ·)).reverse.dropWhile (isWsChar ·)).reverse

/-- String.prototype.replace with a global literal pattern: every
non-overlapping occurrence of `pat` (scanned left to right) becomes
`rep`.  The fuel argument (instantiated with the string length, which
bounds the scan) keeps the recursion structural. -/
def replaceAllSubF (pat rep : List Char) : Nat → List Char → List Char
  | 0, s => s
  | _, [] => []
  | Nat.succ fuel, c :: cs =>
    if prefixB pat (c :: cs) && !pat.isEmpty then
      rep ++ replaceAllSubF pat rep fuel (cs.drop (pat.length - 1))
    else
      c :: replaceAllSubF pat rep fuel cs

/-- String.prototype.replace with a global literal pattern. -/
def replaceAllSub (pat rep : List Char) (s : List Char) : List Char :=
  replaceAllSubF pat rep s.length s

/-! ### The response-cleaning step shared by combineMultipleResponses and
extractPartialScheduleData: trim, then strip leading characters that are
not valid JSON starters and trailing characters that are not valid JSON
enders. -/

/-- A character on which the cleaning loops accept a string start. -/
def validStarter (c : Char) : Bool :=
  c = '\x7b' || c = '[' || c = '\"'

/-- A character on which the cleaning loops accept a string end. -/
def validEnder (c : Char) : Bool :=
  c = '\x7d' || c = ']' || c = '\"'

/-- Drop leading characters until the string starts with a valid JSON
starter (the source's leading while-loop). -/
def stripLeading : List Char → List Char
  | [] => []
  | c :: cs => if validStarter c then c :: cs else stripLeading cs

/-- Drop trailing characters until the string ends with a valid JSON
ender (the source's trailing while-loop). -/
def stripTrailing (s : List Char) : List Char :=
  (s.reverse.dropWhile (fun c => !validEnder c)).reverse

/-- The cleaning prologue of combineMultipleResponses and
extractPartialScheduleData. -/
def cleanResponse (s : List Char) : List Char :=
  stripTrailing (stripLeading (jsTrim s))

/-! ### StructuralScanner: extractMultipleJsonObjects /
extractMultipleJsonArrays.

The source records `startIndex` when the depth goes 0 → 1 and pushes
`response.substring(startIndex, i + 1)` when it returns to 0, validating
the candidate with JSON.parse.  A positional substring keeps every
character between the two delimiters — including escape characters, whose
scan positions are skipped by `continue` but whose indices lie inside the
substring — so the model accumulates every character while a capture is
open (`cur = some buffer` standing for `startIndex ≠ -1`). -/

/-- Scanner state: bracket depth (an Int, as the JS counter may go
negative on stray closers), in-string and escape-pending flags, the open
capture, and the validated candidates found so far. -/
structure ScanSt where
  depth : Int
  inStr : Bool
  esc : Bool
  cur : Option (List Char)
  acc : List (List Char)
deriving Repr

/-- One character of the extractMultipleJsonObjects /
extractMultipleJsonArrays loop, parameterised by the delimiter pair. -/
def scanStep (openC closeC : Char) (st : ScanSt) (c : Char) : ScanSt :=
  if st.esc then
    { st with esc := false, cur := st.cur.map (· ++ [c]) }
  else if c = '\\' then
    { st with esc := true, cur := st.cur.map (· ++ [c]) }
  else
    let inStr' := if c = '\"' then !st.inStr else st.inStr
    if !inStr' then
      if c = openC then
        let cur' := if st.depth = 0 then some [] else st.cur
        { st with inStr := inStr', depth := st.depth + 1, cur := cur'.map (· ++ [c]) }
      else if c = closeC then
        let d := st.depth - 1
        if d = 0 then
          match st.cur with
          | some buf =>
            let acc' := if (jsonParse (buf ++ [c])).isSome then st.acc ++ [buf ++ [c]]
                        else st.acc
            { st with inStr := inStr', depth := d, cur := none, acc := acc' }
          | none => { st with inStr := inStr', depth := d, cur := none }
        else
          { st with inStr := inStr', depth := d, cur := st.cur.map (· ++ [c]) }
      else
        { st with inStr := inStr', cur := st.cur.map (· ++ [c]) }
    else
      { st with inStr := inStr', cur := st.cur.map (· ++ [c]) }

/-- The neutral scanner start state. -/
def scanInit : ScanSt := ⟨0, false, false, none, []⟩

/-- extractMultipleJsonObjects: the balanced, JSON-valid object
substrings of the response. -/
def extractMultipleJsonObjects (response : List Char) : List (List Char) :=
  (response.foldl (scanStep '\x7b' '\x7d') scanInit).acc

/-- extractMultipleJsonArrays: the balanced, JSON-valid array substrings
of the response. -/
def extractMultipleJsonArrays (response : List Char) : List (List Char) :=
  (response.foldl (scanStep '[' ']') scanInit).acc

/-! ### Field-name and message constants of the component. -/

def kSchedule : List Char := "schedule".toList
def kSessions : List Char := "sessions".toList
def kProposedSchedule : List Char := "proposedSchedule".toList
def kTotalSessions : List Char := "totalSessions".toList
def kLocations : List Char := "locations".toList
def kTimeRange : List Char := "timeRange".toList
def kStart : List Char := "start".toList
def kEnd : List Char := "end".toList
def kSessionName : List Char := "sessionName".toList
def kLocation : List Char := "location".toList
def kSpeakers : List Char := "speakers".toList
def kStartTime : List Char := "startTime".toList
def kEndTime : List Char := "endTime".toList
def kFormat : List Char := "format".toList
def kFocus : List Char := "focus".toList
def kSessionAbstract : List Char := "sessionAbstract".toList
def kAbstract : List Char := "abstract".toList
def kType : List Char := "type".toList
def kValue : List Char := "value".toList
def kText : List Char := "Text".toList
def vSpeakerTBD : List Char := "Speaker TBD".toList
def vSessionFormat : List Char := "Session".toList
def vGeneralFocus : List Char := "General".toList
def vTruncAbstract : List Char := "Session details not available due to truncation".toList
def kPart1 : List Char := "Part 1".toList
def kPart2 : List Char := "Part 2".toList
def kResponse1 : List Char := "Response 1".toList
def kResponse2 : List Char := "Response 2".toList
def kTypeTextMarker : List Char := "\"type\":\"Text\"".toList
def kValueMarker : List Char := "\"value\":".toList
def kDots : List Char := "...".toList

/-! ### mergeScheduleData -/

/-- Accumulator of mergeScheduleData's forEach. -/
structure MergeSt where
  sched : List Json
  sess : List Json
  total : Int
  locs : List Json
deriving Repr

/-- Set.prototype.add modelled on a duplicate-free insertion-ordered
list. -/
def insertUniq (l : List Json) (x : Json) : List Json :=
  if x ∈ l then l else l ++ [x]

/-- First statement of mergeScheduleData's forEach body: extract the
slot array (schedule || sessions || proposedSchedule || []) and extend
both the schedule and sessions accumulators. -/
def mergeItemsStep (st : MergeSt) (schedule : Json) : MergeSt :=
  let scheduleItems :=
    jsOrField schedule kSchedule
      (jsOrField schedule kSessions
        (jsOrField schedule kProposedSchedule (Json.arr [])))
  if isArr scheduleItems then
    { st with sched := st.sched ++ arrElems scheduleItems,
              sess := st.sess ++ arrElems scheduleItems }
  else st

/-- Second statement of the forEach body: union the reported location
array into the location set. -/
def mergeLocStep (st : MergeSt) (schedule : Json) : MergeSt :=
  match lookupField schedule kLocations with
  | some locv =>
    if truthy locv && isArr locv then
      { st with locs := (arrElems locv).foldl insertUniq st.locs }
    else st
  | none => st

/-- Third statement of the forEach body: add a truthy reported
totalSessions count (numeric in every payload of this program) to the
running total. -/
def mergeCountStep (st : MergeSt) (schedule : Json) : MergeSt :=
  match lookupField schedule kTotalSessions with
  | some (Json.num n) => if n ≠ 0 then { st with total := st.total + n } else st
  | _ => st

/-- One schedule object of mergeScheduleData's forEach: the three
statements of its body, in order. -/
def mergeStep (st : MergeSt) (schedule : Json) : MergeSt :=
  mergeCountStep (mergeLocStep (mergeItemsStep st schedule) schedule) schedule

/-- mergeScheduleData: merge several schedule-bearing objects into one,
converting the location set back to an array and falling back to the
merged slot count only when the summed reported count is zero.  The
result object's keys are in the source literal's insertion order. -/
def mergeScheduleData (schedules : List Json) : Json :=
  let st := schedules.foldl mergeStep ⟨[], [], 0, []⟩
  let total : Int := if st.total = 0 then (st.sched.length : Int) else st.total
  Json.obj [(kSchedule, Json.arr st.sched),
            (kSessions, Json.arr st.sess),
            (kTotalSessions, Json.num total),
            (kLocations, Json.arr st.locs),
            (kTimeRange, Json.obj [(kStart, Json.null), (kEnd, Json.null)])]

/-- An object carrying any of the three schedule-bearing fields
(truthily), as tested by combineJsonObjects. -/
def hasScheduleData (o : Json) : Bool :=
  truthyField o kSchedule || truthyField o kSessions || truthyField o kProposedSchedule

/-- combineJsonObjects: parse the candidate object strings, merge the
schedule-bearing ones, otherwise fall back to the first candidate. -/
def combineJsonObjects (jsonObjects : List (List Char)) : List Char :=
  let parsed := jsonObjects.filterMap jsonParse
  let schedules := parsed.filter hasScheduleData
  if 0 < schedules.length then jsonStringify (mergeScheduleData schedules)
  else jsonObjects.headD []

/-- combineJsonArrays: parse the candidate array strings and concatenate
their elements in discovery order. -/
def combineJsonArrays (jsonArrays : List (List Char)) : List Char :=
  let allItems := jsonArrays.foldl
    (fun acc s =>
      match jsonParse s with
      | some (Json.arr xs) => acc ++ xs
      | _ => acc)
    []
  jsonStringify (Json.arr allItems)

/-- combineJsonParts: parse each part as an array or as an object
exposing a schedule/sessions array; concatenate what was recovered. -/
def combineJsonParts (parts : List (List Char)) : List Char :=
  let allItems := parts.foldl
    (fun acc part =>
      match jsonParse part with
      | some (Json.arr xs) => acc ++ xs
      | some p =>
        if truthyField p kSchedule || truthyField p kSessions then
          let scheduleData := jsOrField p kSchedule (jsOrField p kSessions Json.null)
          if isArr scheduleData then acc ++ arrElems scheduleData else acc
        else acc
      | none => acc)
    []
  if 0 < allItems.length then jsonStringify (Json.arr allItems)
  else parts.headD []

/-- The greedy regex match of combinePartedResponses
(first open brace through last close brace, if both exist). -/
def regexBraceSpan (s : List Char) : Option (List Char) :=
  let fromBrace := s.dropWhile (fun c => c ≠ '\x7b')
  match fromBrace with
  | [] => none
  | _ :: _ =>
    let tailRev := fromBrace.reverse.dropWhile (fun c => c ≠ '\x7d')
    match tailRev with
    | [] => none
    | _ :: _ => some tailRev.reverse

/-- The escape-sequence fixes of combinePartedResponses (and of the
wrapper-extraction path), applied in source order. -/
def fixEscapes (s : List Char) : List Char :=
  replaceAllSub ['\\', '\\'] ['\\']
    (replaceAllSub ['\\', '\"'] ['\"']
      (replaceAllSub ['\\', 'r'] ['\r']
        (replaceAllSub ['\\', 't'] ['\t']
          (replaceAllSub ['\\', 'n'] ['\n'] s))))

/-- Case-insensitive boolean prefix test. -/
def prefixCI (needle hay : List Char) : Bool :=
  prefixB (needle.map Char.toLower) (hay.map Char.toLower)

/-- Try to match the part-marker pattern (Part or Response, optional
whitespace, at least one digit) at the head of the suffix; on success
return the text after the digits. -/
def matchMarkerAt (s : List Char) : Option (List Char) :=
  let afterKw :=
    if prefixCI ("part".toList) s then some (s.drop 4)
    else if prefixCI ("response".toList) s then some (s.drop 8)
    else none
  match afterKw with
  | none => none
  | some t =>
    let t1 := t.dropWhile (isWsChar ·)
    let ds := t1.takeWhile (fun c => '0' ≤ c && c ≤ '9')
    if ds.isEmpty then none else some (t1.drop ds.length)

/-- First part-marker occurrence: its index and the text after its
digits. -/
def findMarker : List Char → Option (Nat × List Char)
  | [] => none
  | c :: cs =>
    match matchMarkerAt (c :: cs) with
    | some rest => some (0, rest)
    | none => (findMarker cs).map (fun p => (p.1 + 1, p.2))

/-- The `[:\s]*` skip after a part marker. -/
def skipColonWs (s : List Char) : List Char :=
  s.dropWhile (fun c => c = ':' || isWsChar c)

/-- Collect the lazy content groups: each runs to the next marker (or the
end); scanning resumes at that marker. -/
def collectParts : Nat → List Char → List (List Char)
  | 0, s => [s]
  | Nat.succ fuel, s =>
    match findMarker s with
    | some (i, rest) => s.take i :: collectParts fuel (skipColonWs rest)
    | none => [s]

/-- The part-splitting of combinePartedResponses: all content groups of
the global case-insensitive part-marker regex, trimmed, empties
dropped. -/
def partSplit (response : List Char) : List (List Char) :=
  match findMarker response with
  | none => []
  | some (_, rest) =>
    ((collectParts response.length (skipColonWs rest)).map jsTrim).filter
      (fun p => !p.isEmpty)

/-- combinePartedResponses: prefer the greedy brace span (unescaping its
content); otherwise split on explicit part markers and combine the
parts; a single part falls through unchanged. -/
def combinePartedResponses (response : List Char) : List Char :=
  match regexBraceSpan response with
  | some jsonContent => fixEscapes jsonContent
  | none =>
    let parts := partSplit response
    if 1 < parts.length then combineJsonParts parts
    else response

/-- combineMultipleResponses: clean the response, then apply the first
matching multiplicity pattern — several objects, several arrays, explicit
part indicators, a wrapper shape — else return the cleaned response. -/
def combineMultipleResponses (agentResponse : List Char) : List Char :=
  if agentResponse.isEmpty then []
  else
    let cleanedResponse := cleanResponse agentResponse
    let jsonObjects := extractMultipleJsonObjects cleanedResponse
    if 1 < jsonObjects.length then combineJsonObjects jsonObjects
    else
      let jsonArrays := extractMultipleJsonArrays cleanedResponse
      if 1 < jsonArrays.length then combineJsonArrays jsonArrays
      else if containsSub cleanedResponse kPart1 || containsSub cleanedResponse kPart2 ||
          containsSub cleanedResponse kResponse1 || containsSub cleanedResponse kResponse2 then
        combinePartedResponses cleanedResponse
      else if containsSub cleanedResponse kTypeTextMarker &&
          containsSub cleanedResponse kValueMarker then
        combinePartedResponses cleanedResponse
      else cleanedResponse

/-! ### extractPartialScheduleData -/

/-- State of extractPartialScheduleData's object scan: depth counter,
string/escape flags, the accumulated `currentObject`, and the pushed
candidates.  Unlike the positional scanners above, this loop accumulates
`currentObject += char` explicitly, and its two `continue` statements
skip that append — so a backslash and the character it escapes are both
dropped from the candidate. -/
structure PScanSt where
  depth : Int
  inStr : Bool
  esc : Bool
  cur : List Char
  acc : List (List Char)
deriving Repr

/-- One character of extractPartialScheduleData's scan loop. -/
def partialScanStep (st : PScanSt) (c : Char) : PScanSt :=
  if st.esc then { st with esc := false }
  else if c = '\\' then { st with esc := true }
  else
    let inStr' := if c = '\"' then !st.inStr else st.inStr
    let st1 := { st with inStr := inStr' }
    let st2 : PScanSt :=
      if !inStr' then
        if c = '\x7b' then
          let stR := if st1.depth = 0 then { st1 with cur := [] } else st1
          { stR with depth := stR.depth + 1 }
        else if c = '\x7d' then
          let d := st1.depth - 1
          if d = 0 then
            let cand := st1.cur ++ [c]
            let acc' := if (jsTrim cand).isEmpty then st1.acc else st1.acc ++ [jsTrim cand]
            { st1 with depth := d, cur := [], acc := acc' }
          else { st1 with depth := d }
        else st1
      else st1
    if 0 < st2.depth then { st2 with cur := st2.cur ++ [c] } else st2

/-- The neutral start state of the partial scan. -/
def pScanInit : PScanSt := ⟨0, false, false, [], []⟩

/-- The candidate objects found by extractPartialScheduleData's scan. -/
def partialScan (s : List Char) : List (List Char) :=
  (s.foldl partialScanStep pScanInit).acc

/-- The global replace of a comma (with optional whitespace) before a
closing brace by the brace alone (`/,\s*}/g → '}'`).  The fuel argument
(instantiated with the string length) keeps the recursion structural. -/
def rcwbF : Nat → List Char → List Char
  | 0, s => s
  | _, [] => []
  | Nat.succ fuel, c :: cs =>
    if c = ',' then
      let ws := cs.takeWhile (isWsChar ·)
      match cs.drop ws.length with
      | '\x7d' :: rest => '\x7d' :: rcwbF fuel rest
      | _ => c :: rcwbF fuel cs
    else c :: rcwbF fuel cs

/-- The global replace of a comma (with optional whitespace) before a
closing brace by the brace alone. -/
def replaceCommaWsBrace (s : List Char) : List Char :=
  rcwbF s.length s

/-- The trailing-comma strip `/,\s*$/ → ''`. -/
def stripTrailingCommaWs (s : List Char) : List Char :=
  let rev := s.reverse
  let afterWs := rev.drop (rev.takeWhile (isWsChar ·)).length
  match afterWs with
  | ',' :: rest => rest.reverse
  | _ => s

/-- The light repair pass applied to a scanned candidate before
re-parsing. -/
def cleanCandidate (s : List Char) : List Char :=
  stripTrailingCommaWs (replaceCommaWsBrace s)

/-- The slot constructed for a validated candidate: required fields
copied, every optional field present with its documented default. -/
def completeSession (session : Json) : Json :=
  Json.obj [
    (kSessionName, (lookupField session kSessionName).getD Json.null),
    (kLocation, (lookupField session kLocation).getD Json.null),
    (kSpeakers, jsOrField session kSpeakers (Json.arr [Json.str vSpeakerTBD])),
    (kStartTime, jsOrField session kStartTime Json.null),
    (kEndTime, jsOrField session kEndTime Json.null),
    (kFormat, jsOrField session kFormat (Json.str vSessionFormat)),
    (kFocus, jsOrField session kFocus (Json.str vGeneralFocus)),
    (kSessionAbstract,
      jsOrField session kSessionAbstract
        (jsOrField session kAbstract (Json.str vTruncAbstract)))]

/-- Accumulator of the candidate-validation loops: kept slots and the
location set. -/
structure PartialSt where
  sessions : List Json
  locs : List Json
deriving Repr

/-- The validation block shared verbatim by the source's two candidate
loops: keep a parsed candidate only when sessionName and location are
both truthy, appending its completed slot and adding its location to the
set; a parse failure keeps the state. -/
def keepIfValid (st : PartialSt) (parsed : Option Json) : PartialSt :=
  match parsed with
  | some session =>
    if truthyField session kSessionName && truthyField session kLocation then
      { sessions := st.sessions ++ [completeSession session],
        locs := insertUniq st.locs ((lookupField session kLocation).getD Json.null) }
    else st
  | none => st

/-- One candidate of the main validation loop: repair, re-parse, keep
only candidates with truthy sessionName and location. -/
def processCandidate (st : PartialSt) (sessionStr : List Char) : PartialSt :=
  keepIfValid st (jsonParse (cleanCandidate sessionStr))

/-- The quoted sessionName key looked for by the aggressive regex. -/
def kSessionNameQuoted : List Char := "\"sessionName\"".toList

/-- The global matches of the aggressive pattern (an open brace, no
close brace before a quoted sessionName key, through the next close
brace); scanning resumes after each match, and advances one position on
a failed attempt.  The fuel argument (instantiated with the string
length) keeps the recursion structural. -/
def aggScanF : Nat → List Char → List (List Char)
  | 0, _ => []
  | _, [] => []
  | Nat.succ fuel, c :: cs =>
    if c = '\x7b' then
      let seg := cs.takeWhile (fun x => x ≠ '\x7d')
      match cs.drop seg.length with
      | '\x7d' :: rest =>
        if containsSub seg kSessionNameQuoted then
          ('\x7b' :: (seg ++ ['\x7d'])) :: aggScanF fuel rest
        else aggScanF fuel cs
      | _ => aggScanF fuel cs
    else aggScanF fuel cs

/-- The global matches of the aggressive sessionName pattern. -/
def aggScan (s : List Char) : List (List Char) :=
  aggScanF s.length s

/-- One aggressive match: complete a missing close brace, strip dangling
commas, re-parse, and keep it under the same validation. -/
def processAggressive (st : PartialSt) (sessionStr : List Char) : PartialSt :=
  let completed :=
    if sessionStr.getLast? = some '\x7d' then sessionStr else sessionStr ++ ['\x7d']
  keepIfValid st (jsonParse (replaceCommaWsBrace completed))

/-- `new Date(v).getTime()` for the values reaching calculateTimeRange.
The Date constructor's string parsing is a platform facility outside
this embedding: no payload in this development carries a parseable time
value, and absent/null times are rejected by the truthiness guard before
the constructor is reached, so a string maps to an invalid date (NaN),
while a numeric value is its own timestamp. -/
def dateOf : Json → Option Int
  | Json.num n => some n
  | _ => none

/-- The {start, end} range record of calculateTimeRange, `none`
modelling null. -/
structure TimeRange where
  startV : Option Int
  endV : Option Int
deriving Repr, DecidableEq

/-- One schedule item of calculateTimeRange's forEach. -/
def trStep (st : TimeRange) (item : Json) : TimeRange :=
  let st1 :=
    match lookupField item kStartTime with
    | some v =>
      if truthy v then
        match dateOf v with
        | some t =>
          match st.startV with
          | some e => if t < e then { st with startV := some t } else st
          | none => { st with startV := some t }
        | none => st
      else st
    | none => st
  match lookupField item kEndTime with
  | some v =>
    if truthy v then
      match dateOf v with
      | some t =>
        match st1.endV with
        | some e => if e < t then { st1 with endV := some t } else st1
        | none => { st1 with endV := some t }
      | none => st1
    else st1
  | none => st1

/-- calculateTimeRange: earliest parseable start and latest parseable
end over the schedule. -/
def calculateTimeRange (schedule : List Json) : TimeRange :=
  if schedule.isEmpty then ⟨none, none⟩
  else schedule.foldl trStep ⟨none, none⟩

/-- The result record of extractPartialScheduleData. -/
structure PartialData where
  schedule : List Json
  locations : List Json
  timeRange : TimeRange
deriving Repr

/-- extractPartialScheduleData: clean the response, scan for balanced
object candidates, repair/re-parse/validate each, and when none survive
fall back to the aggressive sessionName scan; the catch-all error path
of the source (unreachable in this total model) returns the same empty
well-formed record. -/
def extractPartialScheduleData (response : List Char) : PartialData :=
  let cleanedResponse := cleanResponse response
  let sessionObjects := partialScan cleanedResponse
  let st0 := sessionObjects.foldl processCandidate ⟨[], []⟩
  let st1 :=
    if st0.sessions.isEmpty then
      (aggScan cleanedResponse).foldl processAggressive st0
    else st0
  ⟨st1.sessions, st1.locs, calculateTimeRange st1.sessions⟩

/-! ### parseAgentResponse -/

/-- The result object of parseAgentResponse; `none` models a key absent
from the returned object literal. -/
structure AgentParseResult where
  success : Bool
  schedule : Option (List Json) := none
  totalSessions : Option Nat := none
  locations : Option (List Json) := none
  timeRange : Option TimeRange := none
  note : Option (List Char) := none
  error : Option (List Char) := none
  rawResponse : Option (List Char) := none
  isPartial : Option Bool := none
deriving Repr

def eNoResponse : List Char := "No response received".toList
def rNoResponse : List Char := "No response".toList
def nNoResponseNote : List Char := "No response received from agent".toList
def nMayTrunc : List Char := "Response may be truncated due to platform limits".toList
def nPartialTrunc : List Char :=
  "Response was truncated - showing partial data. Some sessions may be incomplete.".toList
def eInvalidExtract : List Char :=
  "Invalid JSON format in extracted value and no partial data could be extracted".toList
def nTruncNoParse : List Char :=
  "Response appears to be truncated and could not be parsed".toList
def nPartialNonJson : List Char :=
  "Response was truncated - showing partial data extracted from response.".toList
def eNotJsonNoPartial : List Char :=
  "Extracted content is not valid JSON and no partial data could be extracted".toList
def nMaybeTrunc : List Char := "Response may be truncated".toList
def eWrapperFormat : List Char := "Response wrapper format is not as expected".toList
def nMayTruncManual : List Char :=
  "Response may be truncated due to platform limits (parsed manually)".toList
def nPartialManual : List Char :=
  "Response was truncated - showing partial data (parsed manually).".toList
def eManualFail : List Char :=
  "Manual extraction failed - content is not valid JSON and no partial data could be extracted".toList
def nPartialManualX : List Char :=
  "Response was truncated - showing partial data extracted manually.".toList
def eNoValueField : List Char := "No value field found in response wrapper".toList
def nParsedOk : List Char := "Schedule data parsed successfully".toList
def eNoScheduleData : List Char := "Response does not contain valid schedule data".toList
def nFormatNotRecognized : List Char := "Response format not recognized".toList
def eParseFailNoPartial : List Char :=
  "Failed to parse response and no partial data could be extracted".toList

/-- The substring(0, n) + '...' previews attached to failure results. -/
def previewOf (n : Nat) (s : List Char) : List Char :=
  s.take n ++ kDots

/-- The location list `[...new Set(schedule.map(s => s.location).filter(Boolean))]`. -/
def schedLocations (schedule : List Json) : List Json :=
  (schedule.filterMap
    (fun s =>
      match lookupField s kLocation with
      | some v => if truthy v then some v else none
      | none => none)).foldl insertUniq []

/-- Does the trimmed content start with an array or object opener? -/
def looksLikeJson (s : List Char) : Bool :=
  match jsTrim s with
  | '[' :: _ => true
  | '\x7b' :: _ => true
  | _ => false

/-- The shared success/partial/failure processing of an extracted wrapper
value: direct parse, partial-data fallback, or a failure record — the
messages distinguishing the automatic path from the manual fallback. -/
def processExtracted (manual : Bool) (extractedContent original : List Char) :
    AgentParseResult :=
  if looksLikeJson extractedContent then
    match jsonParse extractedContent with
    | some scheduleData =>
      let schedule := if isArr scheduleData then arrElems scheduleData else [scheduleData]
      { success := true, schedule := some schedule,
        totalSessions := some schedule.length,
        locations := some (schedLocations schedule),
        timeRange := some (calculateTimeRange schedule),
        note := some (if manual then nMayTruncManual else nMayTrunc) }
    | none =>
      let partialData := extractPartialScheduleData extractedContent
      if !partialData.schedule.isEmpty then
        { success := true, schedule := some partialData.schedule,
          totalSessions := some partialData.schedule.length,
          locations := some partialData.locations,
          timeRange := some partialData.timeRange,
          note := some (if manual then nPartialManual else nPartialTrunc),
          rawResponse := some original, isPartial := some true }
      else
        { success := false,
          error := some (if manual then eManualFail else eInvalidExtract),
          rawResponse := some (previewOf 500 extractedContent),
          note := some nTruncNoParse }
  else
    let partialData := extractPartialScheduleData extractedContent
    if !partialData.schedule.isEmpty then
      { success := true, schedule := some partialData.schedule,
        totalSessions := some partialData.schedule.length,
        locations := some partialData.locations,
        timeRange := some partialData.timeRange,
        note := some (if manual then nPartialManualX else nPartialNonJson),
        rawResponse := some original, isPartial := some true }
    else
      { success := false,
        error := some (if manual then eManualFail else eNotJsonNoPartial),
        rawResponse := some (previewOf 500 extractedContent),
        note := some nMaybeTrunc }

/-- The manual value-field extraction of the wrapper-parse-failure
fallback: the text after the first `"value":` marker, with the
whitespace run and one opening quote skipped. -/
def manualValueExtract (agentResponse : List Char) : Option (List Char) :=
  match indexOfSub agentResponse kValueMarker with
  | some valueStartIndex =>
    let s1 := (agentResponse.drop (valueStartIndex + 8)).dropWhile
      (fun c => c = ' ' || c = '\n' || c = '\r' || c = '\t')
    some (match s1 with
          | '\"' :: rest => rest
          | other => other)
  | none => none

/-- The wrapper-parse-failure fallback of parseAgentResponse (manual
string parsing). -/
def parseWrapperFallback (agentResponse : List Char) : AgentParseResult :=
  match manualValueExtract agentResponse with
  | some extractedContent => processExtracted true extractedContent agentResponse
  | none =>
    { success := false, error := some eNoValueField,
      rawResponse := some agentResponse }

/-- The whole-response JSON attempt taken when no wrapper marker is
present. -/
def parseDirect (agentResponse : List Char) : AgentParseResult :=
  match jsonParse agentResponse with
  | some scheduleData =>
    if isArr scheduleData && !(arrElems scheduleData).isEmpty &&
        truthyField ((arrElems scheduleData).headD Json.null) kSessionName then
      let schedule := arrElems scheduleData
      { success := true, schedule := some schedule,
        totalSessions := some schedule.length,
        locations := some (schedLocations schedule),
        timeRange := some (calculateTimeRange schedule),
        note := some nParsedOk }
    else
      { success := false, error := some eNoScheduleData,
        rawResponse := some (previewOf 200 agentResponse),
        note := some nFormatNotRecognized }
  | none =>
    let partialData := extractPartialScheduleData agentResponse
    if !partialData.schedule.isEmpty then
      { success := true, schedule := some partialData.schedule,
        totalSessions := some partialData.schedule.length,
        locations := some partialData.locations,
        timeRange := some partialData.timeRange,
        note := some nPartialTrunc,
        rawResponse := some agentResponse, isPartial := some true }
    else
      { success := false, error := some eParseFailNoPartial,
        rawResponse := some (previewOf 500 agentResponse),
        note := some nTruncNoParse }

/-- Is the parsed wrapper's type field the exact string 'Text'? -/
def isTextType (j : Json) : Bool :=
  match lookupField j kType with
  | some (Json.str t) => t = kText
  | _ => false

/-- parseAgentResponse: wrapper detection and unwrapping, direct JSON
parse, and the partial-data fallbacks, following the source's branch
structure.  A truthy non-string wrapper value makes the source's string
operations throw inside the enclosing try, landing in the same manual
fallback as a wrapper parse failure. -/
def parseAgentResponse (agentResponse : List Char) : AgentParseResult :=
  if agentResponse.isEmpty then
    { success := false, error := some eNoResponse,
      rawResponse := some rNoResponse, note := some nNoResponseNote }
  else if containsSub agentResponse kTypeTextMarker &&
      containsSub agentResponse kValueMarker then
    match jsonParse agentResponse with
    | some parsedResponse =>
      if isTextType parsedResponse && truthyField parsedResponse kValue then
        match lookupField parsedResponse kValue with
        | some (Json.str extractedContent) =>
          processExtracted false extractedContent agentResponse
        | _ => parseWrapperFallback agentResponse
      else
        { success := false, error := some eWrapperFormat,
          rawResponse := some agentResponse }
    | none => parseWrapperFallback agentResponse
  else
    parseDirect agentResponse

/-! ### BatchCoordinator (SchedulingAgentQueueable)

The SchedulingAgentQueueable Apex class is not under src/ — only its
README documents it — so the coordinator's link execution is modelled
from the specification (§4.5 and the §6 hard ceiling). -/

/-- AsyncSession status (the states reachable by the coordinator's own
transitions). -/
inductive SessionStatus where
  | pending
  | processing
  | completed
  | failed
deriving Repr, DecidableEq

/-- Modelled from the spec: the coordinator's working state — status,
the monotone totalProcessed counter, the chainDepth (links executed),
the number of links handed to the platform queue (the initial link
included), and the terminal reason text. -/
structure ChainState where
  status : SessionStatus
  totalProcessed : Nat
  chainDepth : Nat
  enqueued : Nat
  reason : List Char
deriving Repr, DecidableEq

/-- The platform ceiling on chained queueable jobs. -/
def maxChainDepth : Nat := 5

/-- The reason text of a chain-limit failure. -/
def rChainLimit : List Char := "Stopped: chain limit reached".toList

/-- The completion summary text. -/
def rAllScheduled : List Char := "Successfully scheduled all sessions in batches.".toList

/-- Modelled from the spec: what one enqueued link observes — the fresh
remaining count, and either a processed batch of slots or an exception
from the agent/persistence calls. -/
inductive LinkInput where
  | work (remaining batch : Nat) : LinkInput
  | failure (remaining : Nat) (err : List Char) : LinkInput
deriving Repr, DecidableEq

/-- Modelled from the spec: one link of SchedulingAgentQueueable.  A
terminal session is never mutated further; a zero remaining count
completes the session before any agent work; otherwise the batch is
processed (or its exception recorded as a Failed terminal state), the
counters advance, and a chainDepth at the platform ceiling of 5 is a
Failed terminal outcome with a chain-limit reason even if work remains;
only below the ceiling is the next link enqueued. -/
def linkStep (st : ChainState) (inp : LinkInput) : ChainState :=
  if st.status = SessionStatus.completed ∨ st.status = SessionStatus.failed then st
  else
    match inp with
    | LinkInput.work remaining batch =>
      if remaining = 0 then
        { st with status := SessionStatus.completed, reason := rAllScheduled }
      else
        let st1 := { st with totalProcessed := st.totalProcessed + batch,
                             chainDepth := st.chainDepth + 1 }
        if maxChainDepth ≤ st1.chainDepth then
          { st1 with status := SessionStatus.failed, reason := rChainLimit }
        else
          { st1 with status := SessionStatus.processing, enqueued := st1.enqueued + 1 }
    | LinkInput.failure remaining err =>
      if remaining = 0 then
        { st with status := SessionStatus.completed, reason := rAllScheduled }
      else
        { st with status := SessionStatus.failed, reason := err }

/-- Modelled from the spec: a chain starts Pending with its initial link
already enqueued. -/
def chainInit : ChainState := ⟨SessionStatus.pending, 0, 0, 1, []⟩

/-- A whole chain: the links run strictly sequentially. -/
def runChain (inputs : List LinkInput) : ChainState :=
  inputs.foldl linkStep chainInit

/-! ### PollingClient (pollAsyncSessionStatus / simulateAsyncProgress) -/

/-- Status values handled by the polling callback. -/
inductive AsyncStatus where
  | pending
  | processing
  | completed
  | failed
deriving Repr, DecidableEq

/-- A terminal status observation. -/
def statusTerminal : AsyncStatus → Bool
  | AsyncStatus.completed => true
  | AsyncStatus.failed => true
  | _ => false

/-- Forward order of statuses (the AsyncSession invariant: transitions
are monotone forward only). -/
def statusRank : AsyncStatus → Nat
  | AsyncStatus.pending => 0
  | AsyncStatus.processing => 1
  | AsyncStatus.completed => 2
  | AsyncStatus.failed => 2

/-- Client-side polling state: asyncProgress, asyncStatus, whether the
poll interval is still installed, and how many times each terminal
handler has run. -/
structure PollSt where
  progress : ℚ
  status : Option AsyncStatus
  pollActive : Bool
  completions : Nat
  failures : Nat
deriving Repr, DecidableEq

/-- The component state right after handleAsyncAgentInitiation: progress
reset to 0, status forced to Processing, both intervals installed. -/
def pollInit : PollSt :=
  ⟨0, some AsyncStatus.processing, true, 0, 0⟩

/-- One tick of the pollAsyncSessionStatus callback on an observed
status: store the status, map it to a progress value (Pending → 10,
Processing → min(+15, 85), terminal → 100 with the handler invoked and
the interval cleared); a cleared interval no longer runs. -/
def pollStep (st : PollSt) (observed : AsyncStatus) : PollSt :=
  if !st.pollActive then st
  else
    let st1 := { st with status := some observed }
    match observed with
    | AsyncStatus.pending => { st1 with progress := 10 }
    | AsyncStatus.processing => { st1 with progress := min (st1.progress + 15) 85 }
    | AsyncStatus.completed =>
      { st1 with progress := 100, pollActive := false,
                 completions := st1.completions + 1 }
    | AsyncStatus.failed =>
      { st1 with progress := 100, pollActive := false,
                 failures := st1.failures + 1 }

/-- One tick of the simulateAsyncProgress callback: while the status is
Processing and progress is below 85, add the random increment r (drawn
from [0, 5) in the source). -/
def simStep (st : PollSt) (r : ℚ) : PollSt :=
  if st.status = some AsyncStatus.processing ∧ st.progress < 85 then
    { st with progress := st.progress + r }
  else st

/-- An observable event of the polling phase: a status poll or a
progress-simulation tick. -/
inductive PollEvent where
  | poll (s : AsyncStatus) : PollEvent
  | sim (r : ℚ) : PollEvent

/-- Dispatch one event. -/
def stepEvent (st : PollSt) : PollEvent → PollSt
  | PollEvent.poll s => pollStep st s
  | PollEvent.sim r => simStep st r

/-- Run a trace of interleaved poll/sim events from initiation. -/
def runPoll (evs : List PollEvent) : PollSt :=
  evs.foldl stepEvent pollInit

/-- Run a poll-only trace. -/
def runPollOnly (ss : List AsyncStatus) : PollSt :=
  ss.foldl pollStep pollInit

/-! ### Proofs about the coordinator model -/

/-- The substring the C3 claim requires in a chain-limit failure
reason. -/
def kChainLimitSub : List Char := "chain limit".toList

/-- The chain invariant: depth and enqueue count bounded by the
ceiling, a live chain keeps one pending enqueued link beyond its depth,
and a chain that reached the ceiling is the chain-limit failure. -/
def ChainInv (st : ChainState) : Prop :=
  st.chainDepth ≤ 5 ∧ st.enqueued ≤ 5 ∧
  ((st.status = SessionStatus.pending ∨ st.status = SessionStatus.processing) →
    st.chainDepth < 5 ∧ st.enqueued = st.chainDepth + 1) ∧
  (st.chainDepth = 5 →
    st.status = SessionStatus.failed ∧ containsSub st.reason kChainLimitSub = true)

theorem chainInv_step (st : ChainState) (inp : LinkInput) (h : ChainInv st) :
    ChainInv (linkStep st inp) := by
  obtain ⟨h1, h2, h3, h4⟩ := h
  unfold linkStep
  split
  · exact ⟨h1, h2, h3, h4⟩
  · rename_i hterm
    have hlive : st.status = SessionStatus.pending ∨ st.status = SessionStatus.processing := by
      cases hst : st.status <;> simp [hst] at hterm ⊢
    obtain ⟨hd5, henq⟩ := h3 hlive
    have hcl : containsSub rChainLimit kChainLimitSub = true := by decide
    cases inp with
    | work remaining batch =>
      by_cases hr : remaining = 0
      · simp only [hr, if_pos rfl]
        unfold ChainInv
        try dsimp only
        refine ⟨h1, h2, by simp, fun hc => by revert hc; first | (intro hc; simp at hc; omega) | (intro hc; omega)⟩
      · simp only [if_neg hr]
        by_cases hceil : maxChainDepth ≤ st.chainDepth + 1
        · have hd : st.chainDepth + 1 = 5 := by
            simp only [maxChainDepth] at hceil; omega
          simp only [if_pos hceil]
          unfold ChainInv
          try dsimp only
          exact ⟨by omega, by omega, by simp, fun _ => ⟨rfl, hcl⟩⟩
        · have hd : st.chainDepth + 1 < 5 := by
            simp only [maxChainDepth] at hceil; omega
          simp only [if_neg hceil]
          unfold ChainInv
          try dsimp only
          exact ⟨by omega, by omega, fun _ => ⟨hd, by omega⟩, fun hc => absurd hc (by omega)⟩
    | failure remaining err =>
      by_cases hr : remaining = 0
      · simp only [hr, if_pos rfl]
        unfold ChainInv
        try dsimp only
        refine ⟨h1, h2, by simp, fun hc => by revert hc; first | (intro hc; simp at hc; omega) | (intro hc; omega)⟩
      · simp only [if_neg hr]
        unfold ChainInv
        try dsimp only
        refine ⟨h1, h2, by simp, fun hc => by revert hc; first | (intro hc; simp at hc; omega) | (intro hc; omega)⟩

theorem chainInv_foldl (inputs : List LinkInput) :
    ∀ st : ChainState, ChainInv st → ChainInv (inputs.foldl linkStep st) := by
  induction inputs with
  | nil => intro st h; simpa using h
  | cons inp rest ih =>
    intro st h
    simpa using ih (linkStep st inp) (chainInv_step st inp h)

/-- C3: for every chain of links, at most 5 links are ever enqueued and
the chain depth never exceeds 5; a chain whose depth reached the ceiling
is terminally Failed with a reason containing "chain limit" — not a
silent stop. -/
theorem chain_limit_enforced (inputs : List LinkInput) :
    (runChain inputs).enqueued ≤ 5 ∧
    (runChain inputs).chainDepth ≤ 5 ∧
    ((runChain inputs).chainDepth = 5 →
      (runChain inputs).status = SessionStatus.failed ∧
      containsSub (runChain inputs).reason kChainLimitSub = true) := by
  have hinit : ChainInv chainInit := by
    refine ⟨by decide, by decide, ?_, ?_⟩
    · intro _; exact ⟨by decide, by decide⟩
    · intro hc; exact absurd hc (by decide)
  obtain ⟨h1, h2, _, h4⟩ := chainInv_foldl inputs chainInit hinit
  exact ⟨h2, h1, h4⟩

/-- A chain of six worked links with work always remaining. -/
def exChainInputs : List LinkInput :=
  [LinkInput.work 60 10, LinkInput.work 50 10, LinkInput.work 40 10,
   LinkInput.work 30 10, LinkInput.work 20 10, LinkInput.work 10 10]

/-- Witness for C3: a chain that still has work after five links is
Failed with a chain-limit reason, its depth and enqueue count capped at
5. -/
theorem chain_limit_enforced_witness :
    (runChain exChainInputs).chainDepth = 5 ∧
    (runChain exChainInputs).enqueued ≤ 5 ∧
    (runChain exChainInputs).status = SessionStatus.failed ∧
    containsSub (runChain exChainInputs).reason kChainLimitSub = true := by
  refine ⟨by decide, (chain_limit_enforced exChainInputs).1, ?_⟩
  exact (chain_limit_enforced exChainInputs).2.2 (by decide)

/-! ### Proofs about the polling model -/

/-- A cleared poll interval never acts again. -/
theorem pollStep_inactive (st : PollSt) (s : AsyncStatus) (h : st.pollActive = false) :
    pollStep st s = st := by
  simp [pollStep, h]

theorem foldl_pollStep_inactive (ss : List AsyncStatus) :
    ∀ st : PollSt, st.pollActive = false → ss.foldl pollStep st = st := by
  induction ss with
  | nil => intro st _; rfl
  | cons s rest ih =>
    intro st h
    simp only [List.foldl_cons, pollStep_inactive st s h]
    exact ih st h

theorem scanl_pollStep_inactive (ss : List AsyncStatus) :
    ∀ st : PollSt, st.pollActive = false →
      List.Chain' (fun a b => a.progress ≤ b.progress) (List.scanl pollStep st ss) := by
  induction ss with
  | nil => intro st _; simp [List.scanl]
  | cons s rest ih =>
    intro st h
    simp only [List.scanl]
    rw [pollStep_inactive st s h]
    refine List.chain'_cons'.mpr ⟨?_, ih st h⟩
    intro y hy
    cases rest with
    | nil => simp [List.scanl] at hy; simp [hy]
    | cons b bs => simp [List.scanl] at hy; simp [hy]

/-- The poll mapping keeps progress in [0, 85] while the interval is
live, and the first terminal observation moves it to 100, fires the
matching handler once, and clears the interval; with forward-monotone
observed statuses the progress sequence of the poll callback is
non-decreasing. -/
theorem pollAux (ss : List AsyncStatus) :
    ∀ st : PollSt,
      List.Chain' (fun a b => statusRank a ≤ statusRank b) ss →
      st.pollActive = true →
      st.completions = 0 → st.failures = 0 →
      st.progress ≤ 85 →
      (ss.head? = some AsyncStatus.pending → st.progress ≤ 10) →
      List.Chain' (fun a b => a.progress ≤ b.progress) (List.scanl pollStep st ss) ∧
      ((ss.foldl pollStep st).completions + (ss.foldl pollStep st).failures
        = if ss.any statusTerminal then 1 else 0) ∧
      (ss.any statusTerminal = true →
        (ss.foldl pollStep st).progress = 100 ∧
        (ss.foldl pollStep st).pollActive = false) := by
  induction ss with
  | nil =>
    intro st _ _ hc hf _ _
    refine ⟨by simp [List.scanl], by simp [hc, hf], by simp⟩
  | cons s rest ih =>
    intro st hmono hact hc hf hbound hpend
    have hstep : ∀ y ∈ (List.scanl pollStep (pollStep st s) rest).head?,
        st.progress ≤ y.progress → True := fun _ _ _ => trivial
    have hhead : (List.scanl pollStep (pollStep st s) rest).head? = some (pollStep st s) := by
      cases rest <;> simp [List.scanl]
    cases s with
    | pending =>
      have hp : pollStep st AsyncStatus.pending =
          { st with status := some AsyncStatus.pending, progress := 10 } := by
        simp [pollStep, hact]
      have h10 : st.progress ≤ 10 := hpend rfl
      have hmono' : List.Chain' (fun a b => statusRank a ≤ statusRank b) rest :=
        hmono.tail
      have hpend' : rest.head? = some AsyncStatus.pending →
          (pollStep st AsyncStatus.pending).progress ≤ 10 := by
        intro _; rw [hp]
      obtain ⟨ih1, ih2, ih3⟩ := ih (pollStep st AsyncStatus.pending) hmono'
        (by rw [hp]; exact hact) (by rw [hp]; exact hc) (by rw [hp]; exact hf)
        (by rw [hp]; norm_num) hpend'
      refine ⟨?_, by simpa [statusTerminal] using ih2, by simpa [statusTerminal] using ih3⟩
      simp only [List.scanl]
      refine List.chain'_cons'.mpr ⟨?_, ih1⟩
      intro y hy
      rw [hhead] at hy
      cases hy
      rw [hp]
      exact h10
    | processing =>
      have hp : pollStep st AsyncStatus.processing =
          { st with status := some AsyncStatus.processing,
                    progress := min (st.progress + 15) 85 } := by
        simp [pollStep, hact]
      have hge : st.progress ≤ min (st.progress + 15) 85 := by
        rcases min_cases (st.progress + 15) 85 with ⟨heq, _⟩ | ⟨heq, _⟩ <;> rw [heq]
        · linarith
        · exact hbound
      have hle : min (st.progress + 15) 85 ≤ 85 := min_le_right _ _
      have hmono' : List.Chain' (fun a b => statusRank a ≤ statusRank b) rest :=
        hmono.tail
      have hpend' : rest.head? = some AsyncStatus.pending →
          (pollStep st AsyncStatus.processing).progress ≤ 10 := by
        intro hhd
        exfalso
        have := List.chain'_cons'.mp hmono
        have h01 := this.1 AsyncStatus.pending hhd
        simp [statusRank] at h01
      obtain ⟨ih1, ih2, ih3⟩ := ih (pollStep st AsyncStatus.processing) hmono'
        (by rw [hp]; exact hact) (by rw [hp]; exact hc) (by rw [hp]; exact hf)
        (by rw [hp]; exact hle) hpend'
      refine ⟨?_, by simpa [statusTerminal] using ih2, by simpa [statusTerminal] using ih3⟩
      simp only [List.scanl]
      refine List.chain'_cons'.mpr ⟨?_, ih1⟩
      intro y hy
      rw [hhead] at hy
      cases hy
      rw [hp]
      exact hge
    | completed =>
      have hp : pollStep st AsyncStatus.completed =
          { st with status := some AsyncStatus.completed, progress := 100,
                    pollActive := false, completions := st.completions + 1 } := by
        simp [pollStep, hact]
      have hinact : (pollStep st AsyncStatus.completed).pollActive = false := by
        rw [hp]
      have hfold : rest.foldl pollStep (pollStep st AsyncStatus.completed)
          = pollStep st AsyncStatus.completed :=
        foldl_pollStep_inactive rest _ hinact
      refine ⟨?_, ?_, ?_⟩
      · simp only [List.scanl]
        refine List.chain'_cons'.mpr ⟨?_, scanl_pollStep_inactive rest _ hinact⟩
        intro y hy
        rw [hhead] at hy
        cases hy
        rw [hp]
        dsimp only
        linarith
      · simp only [List.foldl_cons, hfold, List.any_cons]
        rw [hp]
        simp [statusTerminal, hc, hf]
      · intro _
        simp only [List.foldl_cons, hfold]
        rw [hp]
        exact ⟨rfl, rfl⟩
    | failed =>
      have hp : pollStep st AsyncStatus.failed =
          { st with status := some AsyncStatus.failed, progress := 100,
                    pollActive := false, failures := st.failures + 1 } := by
        simp [pollStep, hact]
      have hinact : (pollStep st AsyncStatus.failed).pollActive = false := by
        rw [hp]
      have hfold : rest.foldl pollStep (pollStep st AsyncStatus.failed)
          = pollStep st AsyncStatus.failed :=
        foldl_pollStep_inactive rest _ hinact
      refine ⟨?_, ?_, ?_⟩
      · simp only [List.scanl]
        refine List.chain'_cons'.mpr ⟨?_, scanl_pollStep_inactive rest _ hinact⟩
        intro y hy
        rw [hhead] at hy
        cases hy
        rw [hp]
        dsimp only
        linarith
      · simp only [List.foldl_cons, hfold, List.any_cons]
        rw [hp]
        simp [statusTerminal, hc, hf]
      · intro _
        simp only [List.foldl_cons, hfold]
        rw [hp]
        exact ⟨rfl, rfl⟩

/-- An interleaving the component can produce: five 15-second polls all
observing Processing, then three 2-second simulation ticks (increment 4,
inside the source's [0,5) range), then the next poll. -/
def exC9trace : List PollEvent :=
  [PollEvent.poll AsyncStatus.processing, PollEvent.poll AsyncStatus.processing,
   PollEvent.poll AsyncStatus.processing, PollEvent.poll AsyncStatus.processing,
   PollEvent.poll AsyncStatus.processing,
   PollEvent.sim 4, PollEvent.sim 4, PollEvent.sim 4]

/-- C9 counterexample: with the status observed as Processing at every
poll (monotone statuses) and simulation increments inside [0, 5), the
poll update after three simulation ticks lowers asyncProgress (the sim
ticks push it to 87, the poll clamps it back to 85) — the progress
estimate is not monotonically non-decreasing across status updates. -/
theorem poll_progress_not_monotone :
    (0 ≤ (4 : ℚ) ∧ (4 : ℚ) < 5) ∧
    (runPoll (exC9trace ++ [PollEvent.poll AsyncStatus.processing])).progress
      < (runPoll exC9trace).progress := by
  norm_num [runPoll, List.foldl, stepEvent, pollStep, simStep, pollInit, exC9trace, min_def]

/-- C9 amended: restricted to the poll callback alone (no concurrent
simulation ticks), with forward-monotone observed statuses the progress
estimate is non-decreasing (Pending → 10, Processing → +15 capped at 85,
terminal → 100), and a terminal observation fires its handler exactly
once and clears the interval, repeated terminal observations included. -/
theorem poll_progress_amended (ss : List AsyncStatus)
    (hmono : List.Chain' (fun a b => statusRank a ≤ statusRank b) ss) :
    List.Chain' (fun a b => a.progress ≤ b.progress) (List.scanl pollStep pollInit ss) ∧
    ((runPollOnly ss).completions + (runPollOnly ss).failures
      = if ss.any statusTerminal then 1 else 0) ∧
    (ss.any statusTerminal = true →
      (runPollOnly ss).progress = 100 ∧ (runPollOnly ss).pollActive = false) := by
  have h := pollAux ss pollInit hmono rfl rfl rfl
    (by norm_num [pollInit]) (fun _ => by norm_num [pollInit])
  simpa [runPollOnly] using h

/-- Witness for the amended C9 theorem at a concrete monotone
observation sequence. -/
theorem poll_progress_amended_witness :
    List.Chain' (fun a b => statusRank a ≤ statusRank b)
      [AsyncStatus.pending, AsyncStatus.processing, AsyncStatus.processing,
       AsyncStatus.completed, AsyncStatus.completed] ∧
    (List.Chain' (fun a b => a.progress ≤ b.progress)
      (List.scanl pollStep pollInit
        [AsyncStatus.pending, AsyncStatus.processing, AsyncStatus.processing,
         AsyncStatus.completed, AsyncStatus.completed]) ∧
    ((runPollOnly [AsyncStatus.pending, AsyncStatus.processing, AsyncStatus.processing,
         AsyncStatus.completed, AsyncStatus.completed]).completions +
      (runPollOnly [AsyncStatus.pending, AsyncStatus.processing, AsyncStatus.processing,
         AsyncStatus.completed, AsyncStatus.completed]).failures
      = if ([AsyncStatus.pending, AsyncStatus.processing, AsyncStatus.processing,
         AsyncStatus.completed, AsyncStatus.completed].any statusTerminal) then 1 else 0) ∧
    (([AsyncStatus.pending, AsyncStatus.processing, AsyncStatus.processing,
         AsyncStatus.completed, AsyncStatus.completed].any statusTerminal) = true →
      (runPollOnly [AsyncStatus.pending, AsyncStatus.processing, AsyncStatus.processing,
         AsyncStatus.completed, AsyncStatus.completed]).progress = 100 ∧
      (runPollOnly [AsyncStatus.pending, AsyncStatus.processing, AsyncStatus.processing,
         AsyncStatus.completed, AsyncStatus.completed]).pollActive = false)) :=
  ⟨by norm_num [List.chain'_cons, statusRank],
   poll_progress_amended _ (by norm_num [List.chain'_cons, statusRank])⟩

/-! ### Proofs about extractPartialScheduleData's slot invariant (C7) -/

/-- The key list of an object value. -/
def objKeys : Json → List (List Char)
  | Json.obj fs => fs.map Prod.fst
  | _ => []

/-- A slot producible by the recovery validation: built by
completeSession from a candidate whose sessionName and location are both
truthy. -/
def GoodSlot (slot : Json) : Prop :=
  ∃ src : Json, slot = completeSession src ∧
    truthyField src kSessionName = true ∧ truthyField src kLocation = true

theorem jsOrField_of_falsy (j : Json) (k : List Char) (d : Json)
    (h : truthyField j k = false) : jsOrField j k d = d := by
  unfold jsOrField
  unfold truthyField at h
  cases hl : lookupField j k with
  | none => rfl
  | some v =>
    rw [hl] at h
    simp only [] at h
    simp [h]

theorem keepIfValid_mem (st : PartialSt) (parsed : Option Json) (slot : Json)
    (h : slot ∈ (keepIfValid st parsed).sessions) :
    slot ∈ st.sessions ∨ GoodSlot slot := by
  unfold keepIfValid at h
  split at h
  · rename_i session
    split at h
    · rename_i hv
      rw [Bool.and_eq_true] at hv
      simp only [List.mem_append, List.mem_singleton] at h
      rcases h with h | h
      · exact Or.inl h
      · exact Or.inr ⟨session, h, hv.1, hv.2⟩
    · exact Or.inl h
  · exact Or.inl h

theorem processCandidate_mem (st : PartialSt) (a : List Char) (slot : Json)
    (h : slot ∈ (processCandidate st a).sessions) :
    slot ∈ st.sessions ∨ GoodSlot slot :=
  keepIfValid_mem st _ slot h

theorem processAggressive_mem (st : PartialSt) (a : List Char) (slot : Json)
    (h : slot ∈ (processAggressive st a).sessions) :
    slot ∈ st.sessions ∨ GoodSlot slot :=
  keepIfValid_mem st _ slot h

theorem fold_sessions_good {α : Type}
    (g : PartialSt → α → PartialSt)
    (hg : ∀ st a slot, slot ∈ (g st a).sessions → slot ∈ st.sessions ∨ GoodSlot slot) :
    ∀ (l : List α) (st : PartialSt) (slot : Json),
      slot ∈ (l.foldl g st).sessions → slot ∈ st.sessions ∨ GoodSlot slot := by
  intro l
  induction l with
  | nil => intro st slot h; exact Or.inl h
  | cons a rest ih =>
    intro st slot h
    rcases ih (g st a) slot h with h1 | h1
    · exact hg st a slot h1
    · exact Or.inr h1

/-- Every slot in a recovered schedule is a completeSession of a
candidate with truthy required fields. -/
theorem extractPartial_good (r : List Char) (slot : Json)
    (h : slot ∈ (extractPartialScheduleData r).schedule) : GoodSlot slot := by
  unfold extractPartialScheduleData at h
  dsimp only at h
  by_cases hemp :
      ((partialScan (cleanResponse r)).foldl processCandidate ⟨[], []⟩).sessions.isEmpty
  · rw [if_pos hemp] at h
    rcases fold_sessions_good processAggressive processAggressive_mem _ _ _ h with h1 | h1
    · rcases fold_sessions_good processCandidate processCandidate_mem _ _ _ h1 with h2 | h2
      · simp at h2
      · exact h2
    · exact h1
  · rw [if_neg hemp] at h
    rcases fold_sessions_good processCandidate processCandidate_mem _ _ _ h with h1 | h1
    · simp at h1
    · exact h1

/-- C7: every recovered slot keeps truthy (for strings: non-empty)
sessionName and location — a candidate missing either is discarded, not
synthesized — and carries exactly the eight slot fields, the optional
ones defaulted when the candidate lacked a truthy value. -/
theorem partial_slots_wellformed (r : List Char) (slot : Json)
    (hmem : slot ∈ (extractPartialScheduleData r).schedule) :
    ∃ src : Json,
      slot = completeSession src ∧
      truthyField src kSessionName = true ∧ truthyField src kLocation = true ∧
      truthyField slot kSessionName = true ∧ truthyField slot kLocation = true ∧
      objKeys slot = [kSessionName, kLocation, kSpeakers, kStartTime, kEndTime,
        kFormat, kFocus, kSessionAbstract] ∧
      (truthyField src kSpeakers = false →
        lookupField slot kSpeakers = some (Json.arr [Json.str vSpeakerTBD])) ∧
      (truthyField src kStartTime = false → lookupField slot kStartTime = some Json.null) ∧
      (truthyField src kEndTime = false → lookupField slot kEndTime = some Json.null) ∧
      (truthyField src kFormat = false →
        lookupField slot kFormat = some (Json.str vSessionFormat)) ∧
      (truthyField src kFocus = false →
        lookupField slot kFocus = some (Json.str vGeneralFocus)) := by
  obtain ⟨src, hslot, hsn, hloc⟩ := extractPartial_good r slot hmem
  subst hslot
  refine ⟨src, rfl, hsn, hloc, ?_, ?_, rfl, ?_, ?_, ?_, ?_, ?_⟩
  · have hv : lookupField (completeSession src) kSessionName
        = some ((lookupField src kSessionName).getD Json.null) := rfl
    unfold truthyField at hsn ⊢
    rw [hv]
    cases hl : lookupField src kSessionName with
    | none => rw [hl] at hsn; exact absurd hsn (by simp)
    | some v => rw [hl] at hsn; simpa using hsn
  · have hv : lookupField (completeSession src) kLocation
        = some ((lookupField src kLocation).getD Json.null) := rfl
    unfold truthyField at hloc ⊢
    rw [hv]
    cases hl : lookupField src kLocation with
    | none => rw [hl] at hloc; exact absurd hloc (by simp)
    | some v => rw [hl] at hloc; simpa using hloc
  · intro hf
    have : lookupField (completeSession src) kSpeakers
        = some (jsOrField src kSpeakers (Json.arr [Json.str vSpeakerTBD])) := rfl
    rw [this, jsOrField_of_falsy src kSpeakers _ hf]
  · intro hf
    have : lookupField (completeSession src) kStartTime
        = some (jsOrField src kStartTime Json.null) := rfl
    rw [this, jsOrField_of_falsy src kStartTime _ hf]
  · intro hf
    have : lookupField (completeSession src) kEndTime
        = some (jsOrField src kEndTime Json.null) := rfl
    rw [this, jsOrField_of_falsy src kEndTime _ hf]
  · intro hf
    have : lookupField (completeSession src) kFormat
        = some (jsOrField src kFormat (Json.str vSessionFormat)) := rfl
    rw [this, jsOrField_of_falsy src kFormat _ hf]
  · intro hf
    have : lookupField (completeSession src) kFocus
        = some (jsOrField src kFocus (Json.str vGeneralFocus)) := rfl
    rw [this, jsOrField_of_falsy src kFocus _ hf]

/-! ### Concrete payloads exercising the recovery pipeline -/

/-- The backslash character, built by code point so that no example
payload needs an escape sequence inside a string literal. -/
def bsC : Char := Char.ofNat 92

/-- The two-character JSON escape backslash-quote, as it appears inside
a stringified wrapper value. -/
def escQuote : List Char := [bsC, Char.ofNat 34]

/-- The spec's truncated-array example: the second record is cut off
inside its first field. -/
def exTruncPayload : List Char :=
  "[\x7b\"sessionName\":\"A\",\"location\":\"Room1\"\x7d,\x7b\"sessionName\":\"B\"".toList

/-- The completed slot recovered for record A. -/
def exSlotA : Json :=
  completeSession (Json.obj
    [(kSessionName, Json.str ['A']), (kLocation, Json.str ("Room1".toList))])

/-- Witness for C7 at the truncated example payload. -/
theorem partial_slots_wellformed_witness :
    exSlotA ∈ (extractPartialScheduleData exTruncPayload).schedule ∧
    (∃ src : Json,
      exSlotA = completeSession src ∧
      truthyField src kSessionName = true ∧ truthyField src kLocation = true ∧
      truthyField exSlotA kSessionName = true ∧ truthyField exSlotA kLocation = true ∧
      objKeys exSlotA = [kSessionName, kLocation, kSpeakers, kStartTime, kEndTime,
        kFormat, kFocus, kSessionAbstract] ∧
      (truthyField src kSpeakers = false →
        lookupField exSlotA kSpeakers = some (Json.arr [Json.str vSpeakerTBD])) ∧
      (truthyField src kStartTime = false →
        lookupField exSlotA kStartTime = some Json.null) ∧
      (truthyField src kEndTime = false →
        lookupField exSlotA kEndTime = some Json.null) ∧
      (truthyField src kFormat = false →
        lookupField exSlotA kFormat = some (Json.str vSessionFormat)) ∧
      (truthyField src kFocus = false →
        lookupField exSlotA kFocus = some (Json.str vGeneralFocus))) :=
  ⟨by decide, partial_slots_wellformed exTruncPayload exSlotA (by decide)⟩

/-- The spec's wrapper example input. -/
def exC4input : List Char :=
  "\x7b\"type\":\"Text\",\"value\":\"[\x7b".toList ++
  escQuote ++ "sessionName".toList ++ escQuote ++ [':'] ++
  escQuote ++ "Keynote".toList ++ escQuote ++ [','] ++
  escQuote ++ "location".toList ++ escQuote ++ [':'] ++
  escQuote ++ "Hall A".toList ++ escQuote ++
  "\x7d]\"\x7d".toList

/-- The slot the wrapper example actually yields: the parsed object,
with no defaulting applied. -/
def exC4slot : Json :=
  Json.obj [(kSessionName, Json.str ("Keynote".toList)),
            (kLocation, Json.str ("Hall A".toList))]

/-- C4 counterexample: the wrapper example parses successfully, but the
produced slot has no speakers field at all — parseAgentResponse's
wrapper-success path performs no defaulting, so speakers is not
["Speaker TBD"]. -/
theorem wrapper_slot_speakers_missing :
    (parseAgentResponse exC4input).schedule = some [exC4slot] ∧
    lookupField exC4slot kSpeakers = none := by
  exact ⟨rfl, rfl⟩

/-- C4 amended: the wrapper example yields a successful proposal whose
single slot carries exactly the parsed sessionName and location (other
fields absent), with totalSessions 1 and locations ["Hall A"]. -/
theorem wrapper_example_parsed :
    parseAgentResponse exC4input =
      { success := true, schedule := some [exC4slot], totalSessions := some 1,
        locations := some [Json.str ("Hall A".toList)],
        timeRange := some ⟨none, none⟩, note := some nMayTrunc } := by
  rfl

/-- Two schedule-bearing fragments whose reported counts disagree with
their slot arrays. -/
def exC6schedules : List Json :=
  [Json.obj [(kSchedule, Json.arr [Json.str ("s1".toList)]), (kTotalSessions, Json.num 5)],
   Json.obj [(kSchedule, Json.arr [Json.str ("s2".toList)]), (kTotalSessions, Json.num 7)]]

/-- C6 counterexample: mergeScheduleData sums the counts reported by the
input payload (5 + 7 = 12) although the merged schedule holds 2 slots —
totalSessions is taken from the input, not recomputed. -/
theorem merge_total_not_recomputed :
    lookupField (mergeScheduleData exC6schedules) kTotalSessions = some (Json.num 12) ∧
    lookupField (mergeScheduleData exC6schedules) kSchedule
      = some (Json.arr [Json.str ("s1".toList), Json.str ("s2".toList)]) ∧
    (12 : Int) ≠ 2 := by
  refine ⟨rfl, rfl, by decide⟩

/-- A truncated payload whose first record carries an escaped quote in
its sessionName value. -/
def exC10payload : List Char :=
  "[\x7b\"sessionName\":\"A".toList ++ escQuote ++
  "B\",\"location\":\"R1\"\x7d,\x7b\"sessionName\":\"C\",\"location\":\"R2\"\x7d,\x7b\"sessionName\":\"D\"".toList

/-- C10 counterexample: the complete record containing a backslash
escape is not omitted — it is recovered, with the escape pair deleted
from its value (sessionName becomes "AB"), alongside the unescaped
second record. -/
theorem escaped_record_not_omitted :
    (extractPartialScheduleData exC10payload).schedule.length = 2 ∧
    lookupField ((extractPartialScheduleData exC10payload).schedule.headD Json.null)
      kSessionName = some (Json.str ['A', 'B']) := by
  exact ⟨rfl, rfl⟩

/-- C10 amended: when the scan reads a backslash, it drops both the
backslash and the following character without any other state change
(two steps of the loop are the identity), so a complete record whose
values contain escape sequences is recovered with those pairs deleted —
the repaired candidate still parses and is kept, not omitted. -/
theorem scan_escape_amended :
    (∀ (st : PScanSt) (c : Char), st.esc = false →
      partialScanStep (partialScanStep st '\\') c = st) ∧
    (extractPartialScheduleData exC10payload).schedule =
      [completeSession (Json.obj
        [(kSessionName, Json.str ['A', 'B']), (kLocation, Json.str ['R', '1'])]),
       completeSession (Json.obj
        [(kSessionName, Json.str ['C']), (kLocation, Json.str ['R', '2'])])] := by
  constructor
  · intro st c h
    cases st with
    | mk d i e cu ac =>
      simp only at h
      subst h
      simp [partialScanStep]
  · rfl

/-- Witness for the amended C10 theorem: two scan steps on a backslash
and an escaped character leave the neutral state unchanged. -/
theorem scan_escape_amended_witness :
    pScanInit.esc = false ∧
    partialScanStep (partialScanStep pScanInit '\\') 'n' = pScanInit :=
  ⟨rfl, scan_escape_amended.1 pScanInit 'n' rfl⟩

/-- A wrapper-marked input whose outer object is not valid JSON. -/
def exC5input : List Char :=
  "\x7b\"type\":\"Text\",\"value\": \"[\x7b\"sessionName\"".toList

/-- The substring the manual fallback hands downstream for that input. -/
def exC5extracted : List Char :=
  "[\x7b\"sessionName\"".toList

/-- C5 counterexample: on a wrapper whose outer object fails JSON.parse,
the fallback does not hand the untouched original downstream — it hands
the substring after the "value": marker. -/
theorem unwrap_not_untouched :
    containsSub exC5input kTypeTextMarker = true ∧
    containsSub exC5input kValueMarker = true ∧
    jsonParse exC5input = none ∧
    manualValueExtract exC5input = some exC5extracted ∧
    manualValueExtract exC5input ≠ some exC5input := by
  refine ⟨rfl, rfl, rfl, rfl, by decide⟩

/-- Two concatenated arrays each holding one session object. -/
def exC2payload : List Char :=
  "[\x7b\"sessionName\":\"A\",\"location\":\"X\"\x7d][\x7b\"sessionName\":\"B\",\"location\":\"Y\"\x7d]".toList

/-- C2 counterexample: on two concatenated arrays of session objects the
object scan fires first (two objects found), and the combination returns
only the first object — array B's item is lost entirely, so the result
is not an array of len(A)+len(B) items. -/
theorem combine_arrays_counterexample :
    combineMultipleResponses exC2payload
      = "\x7b\"sessionName\":\"A\",\"location\":\"X\"\x7d".toList ∧
    isArr ((jsonParse (combineMultipleResponses exC2payload)).getD Json.null) = false ∧
    containsSub (combineMultipleResponses exC2payload) ['B'] = false := by
  refine ⟨rfl, rfl, by decide⟩

/-- Two concatenated schedule-bearing objects. -/
def exC8payload : List Char :=
  "\x7b\"schedule\":[\x7b\"sessionName\":\"A\",\"location\":\"X\"\x7d],\"totalSessions\":1\x7d\x7b\"schedule\":[\x7b\"sessionName\":\"B\",\"location\":\"Y\"\x7d],\"totalSessions\":1\x7d".toList

/-- C8 counterexample: combineMultipleResponses is not idempotent — on
two concatenated schedule objects the first application merges them into
one object whose rendering holds several arrays, and a second
application concatenates those arrays' elements into a different
string. -/
theorem combine_not_idempotent :
    combineMultipleResponses (combineMultipleResponses exC8payload)
      ≠ combineMultipleResponses exC8payload := by
  decide

/-- A one-record array truncated strictly inside its only record. -/
def exC1onePayload : List Char :=
  "[\x7b\"sessionName\":\"A\",\"location\":\"Room1".toList

/-- C1 counterexample: for truncation strictly inside the first record
(N = 1) the recovery does return the N-1 = 0 preceding records, but the
result is a failure object without the partial flag — isPartial is never
set, contradicting the claim that every strictly-inside truncation is
flagged partial. -/
theorem truncation_first_record_not_flagged :
    (parseAgentResponse exC1onePayload).success = false ∧
    (parseAgentResponse exC1onePayload).isPartial = none ∧
    (parseAgentResponse exC1onePayload).schedule = none := by
  exact ⟨rfl, rfl, rfl⟩

/-! ### What mergeScheduleData computes, and where parseAgentResponse's
totalSessions comes from (C6) -/

/-- Following the spec's words: the truthy numeric count one fragment
reports. -/
def dCount (j : Json) : Int :=
  match lookupField j kTotalSessions with
  | some (Json.num n) => if n ≠ 0 then n else 0
  | _ => 0

/-- Following the spec's words: the sum of the counts reported by the
fragments. -/
def reportedCountSum : List Json → Int
  | [] => 0
  | j :: rest => dCount j + reportedCountSum rest

/-- Following the spec's words: the slot array one fragment
contributes. -/
def dItems (j : Json) : List Json :=
  let items := jsOrField j kSchedule
    (jsOrField j kSessions (jsOrField j kProposedSchedule (Json.arr [])))
  if isArr items then arrElems items else []

/-- Following the spec's words: the concatenation of the fragments' slot
arrays. -/
def mergedSlots : List Json → List Json
  | [] => []
  | j :: rest => dItems j ++ mergedSlots rest

theorem mergeItemsStep_proj (st : MergeSt) (j : Json) :
    (mergeItemsStep st j).total = st.total ∧
    (mergeItemsStep st j).sched = st.sched ++ dItems j := by
  unfold mergeItemsStep dItems
  dsimp only
  split
  · rename_i h; simp
  · rename_i h; simp

theorem mergeLocStep_proj (st : MergeSt) (j : Json) :
    (mergeLocStep st j).total = st.total ∧
    (mergeLocStep st j).sched = st.sched := by
  unfold mergeLocStep
  split
  · split <;> simp
  · simp

theorem mergeCountStep_proj (st : MergeSt) (j : Json) :
    (mergeCountStep st j).total = st.total + dCount j ∧
    (mergeCountStep st j).sched = st.sched := by
  unfold mergeCountStep dCount
  cases hl : lookupField j kTotalSessions with
  | none => simp [hl]
  | some v =>
    cases v with
    | num n =>
      simp only [hl]
      split <;> simp
    | null => simp [hl]
    | bool b => simp [hl]
    | str s2 => simp [hl]
    | arr a => simp [hl]
    | obj o => simp [hl]

theorem mergeStep_total (st : MergeSt) (j : Json) :
    (mergeStep st j).total = st.total + dCount j := by
  unfold mergeStep
  rw [(mergeCountStep_proj _ j).1, (mergeLocStep_proj _ j).1, (mergeItemsStep_proj st j).1]

theorem mergeStep_sched (st : MergeSt) (j : Json) :
    (mergeStep st j).sched = st.sched ++ dItems j := by
  unfold mergeStep
  rw [(mergeCountStep_proj _ j).2, (mergeLocStep_proj _ j).2, (mergeItemsStep_proj st j).2]

theorem mergeFold (schedules : List Json) :
    ∀ st : MergeSt,
      (schedules.foldl mergeStep st).total = st.total + reportedCountSum schedules ∧
      (schedules.foldl mergeStep st).sched = st.sched ++ mergedSlots schedules := by
  induction schedules with
  | nil => intro st; simp [reportedCountSum, mergedSlots]
  | cons j rest ih =>
    intro st
    simp only [List.foldl_cons, reportedCountSum, mergedSlots]
    obtain ⟨iht, ihs⟩ := ih (mergeStep st j)
    constructor
    · rw [iht, mergeStep_total]; ring
    · rw [ihs, mergeStep_sched]; simp

/-- C6 amended part 1: mergeScheduleData's totalSessions equals the sum
of the truthy numeric counts reported by the input fragments, and is
recomputed from the merged slot array only when that sum is zero. -/
theorem mergeScheduleData_total (schedules : List Json) :
    lookupField (mergeScheduleData schedules) kTotalSessions
      = some (Json.num (if reportedCountSum schedules = 0
          then ((mergedSlots schedules).length : Int)
          else reportedCountSum schedules)) ∧
    lookupField (mergeScheduleData schedules) kSchedule
      = some (Json.arr (mergedSlots schedules)) := by
  obtain ⟨ht, hs⟩ := mergeFold schedules ⟨[], [], 0, []⟩
  unfold mergeScheduleData
  have hlookT : ∀ v1 v2 v3 v4 v5 : Json,
      lookupField (Json.obj [(kSchedule, v1), (kSessions, v2), (kTotalSessions, v3),
        (kLocations, v4), (kTimeRange, v5)]) kTotalSessions = some v3 := fun _ _ _ _ _ => rfl
  have hlookS : ∀ v1 v2 v3 v4 v5 : Json,
      lookupField (Json.obj [(kSchedule, v1), (kSessions, v2), (kTotalSessions, v3),
        (kLocations, v4), (kTimeRange, v5)]) kSchedule = some v1 := fun _ _ _ _ _ => rfl
  rw [hlookT, hlookS, ht, hs]
  norm_num

theorem processExtracted_total (m : Bool) (c o : List Char)
    (h : (processExtracted m c o).success = true) :
    ∃ sch, (processExtracted m c o).schedule = some sch ∧
      (processExtracted m c o).totalSessions = some sch.length := by
  revert h
  unfold processExtracted
  split
  · split
    · intro _; exact ⟨_, rfl, rfl⟩
    · dsimp only
      split
      · intro _; exact ⟨_, rfl, rfl⟩
      · intro h; simp at h
  · dsimp only
    split
    · intro _; exact ⟨_, rfl, rfl⟩
    · intro h; simp at h

theorem parseWrapperFallback_total (s : List Char)
    (h : (parseWrapperFallback s).success = true) :
    ∃ sch, (parseWrapperFallback s).schedule = some sch ∧
      (parseWrapperFallback s).totalSessions = some sch.length := by
  revert h
  unfold parseWrapperFallback
  split
  · exact fun h => processExtracted_total _ _ _ h
  · intro h; simp at h

theorem parseDirect_total (s : List Char)
    (h : (parseDirect s).success = true) :
    ∃ sch, (parseDirect s).schedule = some sch ∧
      (parseDirect s).totalSessions = some sch.length := by
  revert h
  unfold parseDirect
  split
  · split
    · intro _; exact ⟨_, rfl, rfl⟩
    · intro h; simp at h
  · dsimp only
    split
    · intro _; exact ⟨_, rfl, rfl⟩
    · intro h; simp at h

theorem parseAgentResponse_total (s : List Char)
    (h : (parseAgentResponse s).success = true) :
    ∃ sch, (parseAgentResponse s).schedule = some sch ∧
      (parseAgentResponse s).totalSessions = some sch.length := by
  revert h
  unfold parseAgentResponse
  split
  · intro h; simp at h
  · split
    · split
      · split
        · split
          · exact fun h => processExtracted_total _ _ _ h
          · exact fun h => parseWrapperFallback_total _ h
        · intro h; simp at h
      · exact fun h => parseWrapperFallback_total _ h
    · exact fun h => parseDirect_total _ h

/-- C6 amended: every successful ScheduleProposal built by
parseAgentResponse recomputes totalSessions as the length of its
schedule array; mergeScheduleData, by contrast, sums the counts reported
by the input fragments and falls back to the merged slot count only when
that sum is zero. -/
theorem totalSessions_amended :
    (∀ schedules : List Json,
      lookupField (mergeScheduleData schedules) kTotalSessions
        = some (Json.num (if reportedCountSum schedules = 0
            then ((mergedSlots schedules).length : Int)
            else reportedCountSum schedules)) ∧
      lookupField (mergeScheduleData schedules) kSchedule
        = some (Json.arr (mergedSlots schedules))) ∧
    (∀ s : List Char, (parseAgentResponse s).success = true →
      ∃ sch, (parseAgentResponse s).schedule = some sch ∧
        (parseAgentResponse s).totalSessions = some sch.length) :=
  ⟨mergeScheduleData_total, parseAgentResponse_total⟩

/-- Witness for the amended C6 theorem at concrete inputs. -/
theorem totalSessions_amended_witness :
    (parseAgentResponse exC4input).success = true ∧
    lookupField (mergeScheduleData exC6schedules) kTotalSessions
      = some (Json.num (if reportedCountSum exC6schedules = 0
          then ((mergedSlots exC6schedules).length : Int)
          else reportedCountSum exC6schedules)) ∧
    (∃ sch, (parseAgentResponse exC4input).schedule = some sch ∧
      (parseAgentResponse exC4input).totalSessions = some sch.length) :=
  ⟨rfl, (totalSessions_amended.1 exC6schedules).1,
   totalSessions_amended.2 exC4input rfl⟩

/-! ### The wrapper-parse-failure fallback (C5) -/

theorem prefixB_length (needle : List Char) :
    ∀ hay, prefixB needle hay = true → needle.length ≤ hay.length := by
  induction needle with
  | nil => intro hay _; simp
  | cons a as ih =>
    intro hay h
    cases hay with
    | nil => simp [prefixB] at h
    | cons b bs =>
      simp only [prefixB, Bool.and_eq_true] at h
      have := ih bs h.2
      simp only [List.length_cons]
      omega

theorem indexOfSub_le (needle : List Char) :
    ∀ (hay : List Char) (i : Nat), indexOfSub hay needle = some i →
      i + needle.length ≤ hay.length := by
  intro hay
  induction hay with
  | nil =>
    intro i h
    unfold indexOfSub at h
    by_cases he : needle.isEmpty
    · rw [if_pos he] at h
      cases h
      simp [List.isEmpty_iff.mp he]
    · rw [if_neg he] at h
      cases h
  | cons c t ih =>
    intro i h
    unfold indexOfSub at h
    by_cases hp : prefixB needle (c :: t) = true
    · rw [if_pos hp] at h
      cases h
      simpa using prefixB_length needle (c :: t) hp
    · rw [if_neg hp] at h
      cases hj : indexOfSub t needle with
      | none => rw [hj] at h; cases h
      | some j =>
        rw [hj] at h
        have h2 : some (j + 1) = some i := h
        cases h2
        have := ih j hj
        simp only [List.length_cons]
        omega

theorem manualValueExtract_shrinks (s t : List Char)
    (h : manualValueExtract s = some t) : t.length + 8 ≤ s.length := by
  unfold manualValueExtract at h
  cases hio : indexOfSub s kValueMarker with
  | none => rw [hio] at h; cases h
  | some i =>
    rw [hio] at h
    simp only [Option.some.injEq] at h
    have hi : i + 8 ≤ s.length := by
      simpa [kValueMarker] using indexOfSub_le kValueMarker s i hio
    have hdrop : (s.drop (i + 8)).length = s.length - (i + 8) := by
      simp
    have hdw : ((s.drop (i + 8)).dropWhile
        (fun c => c = ' ' || c = '\n' || c = '\r' || c = '\t')).length
        ≤ (s.drop (i + 8)).length :=
      ((List.dropWhile_suffix _).sublist).length_le
    have ht : t.length ≤ ((s.drop (i + 8)).dropWhile
        (fun c => c = ' ' || c = '\n' || c = '\r' || c = '\t')).length := by
      rw [← h]
      cases hs1 : (s.drop (i + 8)).dropWhile
          (fun c => c = ' ' || c = '\n' || c = '\r' || c = '\t') with
      | nil => simp
      | cons a rest =>
        by_cases ha : a = '\"'
        · subst ha; simp
        · rw [List.length_cons]
          split
          · rename_i rest2 heq
            cases heq
            omega
          · simp
    omega

/-- C5 amended: when the wrapper markers are present but the outer
object fails JSON.parse, parseAgentResponse does not throw — it takes
the manual fallback — and what that fallback hands downstream is the
substring after the `"value":` marker, at least eight characters shorter
than the original input, never the untouched original. -/
theorem unwrap_fallback_amended (s : List Char)
    (h1 : containsSub s kTypeTextMarker = true)
    (h2 : containsSub s kValueMarker = true)
    (h3 : jsonParse s = none) :
    parseAgentResponse s = parseWrapperFallback s ∧
    (∀ t, manualValueExtract s = some t → t.length + 8 ≤ s.length) := by
  constructor
  · have hne : s.isEmpty = false := by
      cases s with
      | nil => exact absurd h2 (by decide)
      | cons a as => rfl
    unfold parseAgentResponse
    simp [hne, h1, h2, h3]
  · intro t ht
    exact manualValueExtract_shrinks s t ht

/-- Witness for the amended C5 theorem at the malformed-wrapper
example. -/
theorem unwrap_fallback_amended_witness :
    (containsSub exC5input kTypeTextMarker = true ∧
     containsSub exC5input kValueMarker = true ∧
     jsonParse exC5input = none) ∧
    (parseAgentResponse exC5input = parseWrapperFallback exC5input ∧
     (∀ t, manualValueExtract exC5input = some t → t.length + 8 ≤ exC5input.length)) :=
  ⟨⟨rfl, rfl, rfl⟩, unwrap_fallback_amended exC5input rfl rfl rfl⟩

/-! ### Cleaning is idempotent; pass-through combination (C8) -/

theorem validStarter_not_ws (c : Char) (h : validStarter c = true) : isWsChar c = false := by
  have h' : (c = '\x7b' ∨ c = '[') ∨ c = '\"' := by
    simpa [validStarter] using h
  rcases h' with (h' | h') | h' <;> subst h' <;> rfl

theorem validEnder_not_ws (c : Char) (h : validEnder c = true) : isWsChar c = false := by
  have h' : (c = '\x7d' ∨ c = ']') ∨ c = '\"' := by
    simpa [validEnder] using h
  rcases h' with (h' | h') | h' <;> subst h' <;> rfl

theorem dropWhile_shape (p : Char → Bool) :
    ∀ l : List Char, l.dropWhile p = [] ∨
      ∃ c cs, l.dropWhile p = c :: cs ∧ p c = false := by
  intro l
  induction l with
  | nil => exact Or.inl rfl
  | cons a as ih =>
    by_cases hp : p a
    · simpa [List.dropWhile_cons, hp] using ih
    · right
      exact ⟨a, as, by simp [List.dropWhile_cons, hp], by simpa using hp⟩

theorem stripLeading_shape :
    ∀ s : List Char, stripLeading s = [] ∨
      ∃ c cs, stripLeading s = c :: cs ∧ validStarter c = true := by
  intro s
  induction s with
  | nil => exact Or.inl rfl
  | cons a as ih =>
    by_cases hp : validStarter a
    · exact Or.inr ⟨a, as, by simp [stripLeading, hp], hp⟩
    · simpa [stripLeading, hp] using ih

theorem stripTrailing_prefix (s : List Char) : stripTrailing s <+: s := by
  unfold stripTrailing
  have h := List.dropWhile_suffix (l := s.reverse) (fun c => !validEnder c)
  have h2 := List.reverse_prefix.mpr h
  simpa using h2

theorem stripTrailing_shape (s : List Char) :
    stripTrailing s = [] ∨
      ∃ init c, stripTrailing s = init ++ [c] ∧ validEnder c = true := by
  rcases dropWhile_shape (fun c => !validEnder c) s.reverse with h | ⟨c, cs, heq, hpc⟩
  · left; unfold stripTrailing; rw [h]; rfl
  · right
    refine ⟨cs.reverse, c, ?_, by simpa using hpc⟩
    unfold stripTrailing
    rw [heq]
    simp

theorem stripTrailing_id (s : List Char) (c : Char) (h : validEnder c = true) :
    stripTrailing (s ++ [c]) = s ++ [c] := by
  unfold stripTrailing
  rw [List.reverse_append]
  simp [List.dropWhile_cons, h]

theorem stripLeading_id (c : Char) (cs : List Char) (h : validStarter c = true) :
    stripLeading (c :: cs) = c :: cs := by
  simp [stripLeading, h]

theorem prefix_head (p l : List Char) (a b : Char) (as bs : List Char)
    (hp : p <+: l) (h1 : p = a :: as) (h2 : l = b :: bs) : a = b := by
  obtain ⟨t, ht⟩ := hp
  rw [h1, h2] at ht
  exact (List.cons.injEq _ _ _ _ ▸ ht).1

/-- The cleaning prologue is idempotent. -/
theorem cleanResponse_idem (s : List Char) :
    cleanResponse (cleanResponse s) = cleanResponse s := by
  rcases stripTrailing_shape (stripLeading (jsTrim s)) with h | ⟨init, c, heq, hender⟩
  · have hcs : cleanResponse s = [] := h
    rw [hcs]; rfl
  · have hcs : cleanResponse s = init ++ [c] := heq
    rcases stripLeading_shape (jsTrim s) with h2 | ⟨d, ds, heq2, hstart⟩
    · exfalso
      have : cleanResponse s = [] := by
        unfold cleanResponse
        rw [h2]; rfl
      rw [hcs] at this
      simpa using this
    · -- head of the cleaned string is the starter d
      have hpre : cleanResponse s <+: stripLeading (jsTrim s) := by
        unfold cleanResponse
        rw [heq2]
        rw [← heq2]
        exact stripTrailing_prefix _
      have hne : cleanResponse s ≠ [] := by rw [hcs]; simp
      obtain ⟨c0, cs0, hcons⟩ : ∃ c0 cs0, cleanResponse s = c0 :: cs0 := by
        cases hx : cleanResponse s with
        | nil => exact absurd hx hne
        | cons c0 cs0 => exact ⟨c0, cs0, rfl⟩
      have hc0 : c0 = d := prefix_head _ _ _ _ _ _ hpre hcons heq2
      have hc0starter : validStarter c0 = true := hc0 ▸ hstart
      -- trim leaves the cleaned string unchanged
      have htrim : jsTrim (cleanResponse s) = cleanResponse s := by
        unfold jsTrim
        rw [hcons]
        rw [List.dropWhile_cons]
        rw [validStarter_not_ws c0 hc0starter]
        rw [← hcons, hcs]
        simp only [Bool.false_eq_true, if_false]
        rw [List.reverse_append]
        simp only [List.reverse_cons, List.reverse_nil, List.nil_append,
          List.singleton_append, List.dropWhile_cons]
        rw [validEnder_not_ws c hender]
        simp
      have hsl : stripLeading (cleanResponse s) = cleanResponse s := by
        rw [hcons]
        exact stripLeading_id c0 cs0 hc0starter
      have hun : cleanResponse (cleanResponse s)
          = stripTrailing (stripLeading (jsTrim (cleanResponse s))) := rfl
      rw [hun, htrim, hsl, hcs]
      exact stripTrailing_id init c hender

/-- When the cleaned response shows none of the multiplicity patterns,
combineMultipleResponses returns it unchanged. -/
theorem combine_pass (s : List Char)
    (hobj : (extractMultipleJsonObjects (cleanResponse s)).length ≤ 1)
    (harr : (extractMultipleJsonArrays (cleanResponse s)).length ≤ 1)
    (hp1 : containsSub (cleanResponse s) kPart1 = false)
    (hp2 : containsSub (cleanResponse s) kPart2 = false)
    (hr1 : containsSub (cleanResponse s) kResponse1 = false)
    (hr2 : containsSub (cleanResponse s) kResponse2 = false)
    (hw : (containsSub (cleanResponse s) kTypeTextMarker &&
      containsSub (cleanResponse s) kValueMarker) = false) :
    combineMultipleResponses s = cleanResponse s := by
  by_cases hse : s.isEmpty
  · have hnil : s = [] := by
      cases s with
      | nil => rfl
      | cons a as => simp at hse
    subst hnil
    rfl
  · unfold combineMultipleResponses
    rw [if_neg (by simpa using hse)]
    rw [if_neg (by omega), if_neg (by omega)]
    rw [if_neg (by simp [hp1, hp2, hr1, hr2])]
    rw [if_neg (by simp [hw])]

/-- C8 amended: the envelope-unwrap/combination stage is idempotent on
pass-through inputs — those whose cleaned text contains at most one
scanned object, at most one scanned array, no part markers and no
wrapper markers: one application returns the cleaned text, and a second
application returns it unchanged.  (On multi-fragment inputs it is not
idempotent, as the counterexample shows.) -/
theorem combine_idempotent_amended (s : List Char)
    (hobj : (extractMultipleJsonObjects (cleanResponse s)).length ≤ 1)
    (harr : (extractMultipleJsonArrays (cleanResponse s)).length ≤ 1)
    (hp1 : containsSub (cleanResponse s) kPart1 = false)
    (hp2 : containsSub (cleanResponse s) kPart2 = false)
    (hr1 : containsSub (cleanResponse s) kResponse1 = false)
    (hr2 : containsSub (cleanResponse s) kResponse2 = false)
    (hw : (containsSub (cleanResponse s) kTypeTextMarker &&
      containsSub (cleanResponse s) kValueMarker) = false) :
    combineMultipleResponses s = cleanResponse s ∧
    combineMultipleResponses (combineMultipleResponses s)
      = combineMultipleResponses s := by
  have h1 := combine_pass s hobj harr hp1 hp2 hr1 hr2 hw
  have hidem := cleanResponse_idem s
  refine ⟨h1, ?_⟩
  rw [h1]
  have h2 := combine_pass (cleanResponse s)
    (by rw [hidem]; exact hobj) (by rw [hidem]; exact harr)
    (by rw [hidem]; exact hp1) (by rw [hidem]; exact hp2)
    (by rw [hidem]; exact hr1) (by rw [hidem]; exact hr2)
    (by rw [hidem]; exact hw)
  rw [h2, hidem]

/-- A pass-through input: one array, no markers. -/
def exC8pass : List Char := "[1,2]".toList

/-- Witness for the amended C8 theorem at a pass-through input. -/
theorem combine_idempotent_amended_witness :
    ((extractMultipleJsonObjects (cleanResponse exC8pass)).length ≤ 1 ∧
     (extractMultipleJsonArrays (cleanResponse exC8pass)).length ≤ 1) ∧
    (combineMultipleResponses exC8pass = cleanResponse exC8pass ∧
     combineMultipleResponses (combineMultipleResponses exC8pass)
       = combineMultipleResponses exC8pass) :=
  ⟨⟨by decide, by decide⟩,
   combine_idempotent_amended exC8pass (by decide) (by decide) (by decide)
     (by decide) (by decide) (by decide) (by decide)⟩

/-! ### Truncated serialized record arrays (C1)

The claim quantifies over payloads that are JSON arrays of well-formed
SessionSlot records truncated strictly inside the Nth record.  A record
is modelled as its field list — names and string values over characters
that need no JSON escaping — and the serializers below render such
records exactly as JSON.stringify renders them, so that the truncation
offset can be placed at an arbitrary character. -/

/-- A character needing no JSON string escaping and inert to the
recovery scan: printable and neither quote, backslash nor closing
brace. -/
def safeChar (c : Char) : Bool :=
  32 ≤ c.toNat && c ≠ '\"' && c ≠ '\\' && c ≠ '\x7d'

/-- The JSON fields a record's field list denotes. -/
def jfields (r : List (List Char × List Char)) : List (List Char × Json) :=
  r.map (fun p => (p.1, Json.str p.2))

/-- The JSON object a record denotes. -/
def recObj (r : List (List Char × List Char)) : Json :=
  Json.obj (jfields r)

/-- Rendering of a JSON string whose characters need no escaping. -/
def serStr (s : List Char) : List Char := '\"' :: s ++ ['\"']

/-- Rendering of one record field. -/
def serField (p : List Char × List Char) : List Char :=
  serStr p.1 ++ ':' :: serStr p.2

/-- Comma-joined rendering of a record's fields. -/
def serFieldsInner : List (List Char × List Char) → List Char
  | [] => []
  | [p] => serField p
  | p :: ps => serField p ++ ',' :: serFieldsInner ps

/-- Rendering of one record. -/
def serRecord (r : List (List Char × List Char)) : List Char :=
  '\x7b' :: serFieldsInner r ++ ['\x7d']

/-- Comma-joined rendering of the records of an array. -/
def serElemsJoin : List (List (List Char × List Char)) → List Char
  | [] => []
  | [r] => serRecord r
  | r :: rs => serRecord r ++ ',' :: serElemsJoin rs

/-- The truncated payload: the complete records, a comma, then the first
k characters of the next record. -/
def payloadOf (done : List (List (List Char × List Char)))
    (rN : List (List Char × List Char)) (k : Nat) : List Char :=
  '[' :: serElemsJoin done ++ ',' :: (serRecord rN).take k

/-- A record the serializers model faithfully: nonempty, with unescaped
names and values. -/
def SafeRec (r : List (List Char × List Char)) : Prop :=
  r ≠ [] ∧ ∀ p ∈ r, p.1.all safeChar = true ∧ p.2.all safeChar = true

/-- A record both of whose required fields are truthy once parsed. -/
def GoodRec (r : List (List Char × List Char)) : Prop :=
  truthyField (recObj r) kSessionName = true ∧
  truthyField (recObj r) kLocation = true

instance (r : List (List Char × List Char)) : Decidable (SafeRec r) := by
  unfold SafeRec
  infer_instance

instance (r : List (List Char × List Char)) : Decidable (GoodRec r) := by
  unfold GoodRec
  infer_instance

theorem safeChar_spec (c : Char) (h : safeChar c = true) :
    32 ≤ c.toNat ∧ c ≠ '\"' ∧ c ≠ '\\' ∧ c ≠ '\x7d' := by
  simp only [safeChar, Bool.and_eq_true, decide_eq_true_eq] at h
  exact ⟨h.1.1.1, h.1.1.2, h.1.2, h.2⟩

theorem skipWs_cons (c : Char) (cs : List Char) (h : isWsChar c = false) :
    skipWs (c :: cs) = c :: cs := by
  simp [skipWs, h]

/-- Round trip of a safe string literal body. -/
theorem psb_ok (s : List Char) (h : s.all safeChar = true) (rest : List Char) :
    parseStringBody (s ++ '\"' :: rest) = some (s, rest) := by
  induction s with
  | nil =>
    rw [parseStringBody.eq_def]
    rfl
  | cons c cs ih =>
    rw [List.all_cons, Bool.and_eq_true] at h
    obtain ⟨h32, hq, hb, _⟩ := safeChar_spec c h.1
    have hlt : ¬ c.toNat < 32 := by omega
    rw [List.cons_append, parseStringBody.eq_def]
    simp [hq, hb, hlt, ih h.2]

/-- A strict prefix of a safe string literal body never closes, so the
body parse fails. -/
theorem psb_prefix_fail (s : List Char) (h : s.all safeChar = true) :
    ∀ j, j ≤ s.length → parseStringBody (s.take j) = none := by
  induction s with
  | nil =>
    intro j _
    rw [List.take_nil]
    rfl
  | cons c cs ih =>
    intro j hj
    rw [List.all_cons, Bool.and_eq_true] at h
    obtain ⟨h32, hq, hb, _⟩ := safeChar_spec c h.1
    have hlt : ¬ c.toNat < 32 := by omega
    cases j with
    | zero => rfl
    | succ j' =>
      have hj' : j' ≤ cs.length := by simpa using hj
      rw [List.take_succ_cons, parseStringBody.eq_def]
      simp [hq, hb, hlt, ih h.2 j' hj']

theorem parseVal_nil (fuel : Nat) : parseVal fuel [] = none := by
  cases fuel <;> rfl

theorem parseMembers_nil (fuel : Nat) (acc : List (List Char × Json)) :
    parseMembers fuel [] acc = none := by
  cases fuel <;> rfl

theorem serField_shape (p : List Char × List Char) (u : List Char) :
    serField p ++ u = '\"' :: (p.1 ++ '\"' :: ':' :: '\"' :: (p.2 ++ '\"' :: u)) := by
  simp [serField, serStr]

theorem serFieldsInner_one (p : List Char × List Char) :
    serFieldsInner [p] = serField p := rfl

theorem serFieldsInner_cons₂ (p q : List Char × List Char)
    (ps : List (List Char × List Char)) :
    serFieldsInner (p :: q :: ps) = serField p ++ ',' :: serFieldsInner (q :: ps) := rfl

theorem serRecord_shape (r : List (List Char × List Char)) (u : List Char) :
    serRecord r ++ u = '\x7b' :: (serFieldsInner r ++ '\x7d' :: u) := by
  simp [serRecord]

theorem serFieldsInner_cons_shape (p : List Char × List Char)
    (ps : List (List Char × List Char)) (u : List Char) :
    ∃ X, serFieldsInner (p :: ps) ++ u = '\"' :: X := by
  cases ps with
  | nil =>
    exact ⟨_, by rw [serFieldsInner_one, serField_shape]⟩
  | cons q ps' =>
    have h : serFieldsInner (p :: q :: ps') ++ u
        = serField p ++ (',' :: (serFieldsInner (q :: ps') ++ u)) := by
      rw [serFieldsInner_cons₂]
      simp
    exact ⟨_, by rw [h, serField_shape]⟩

/-! Head-specialised unfoldings of the mutual parser, each holding by
definitional reduction; rewriting with these avoids unfolding the whole
match tree. -/

theorem parseVal_succ_quote (fuel : Nat) (cs : List Char) :
    parseVal (Nat.succ fuel) ('\"' :: cs)
      = match parseStringBody cs with
        | some (str, rest) => some (Json.str str, rest)
        | none => none := rfl

theorem parseVal_succ_lbrace (fuel : Nat) (cs : List Char) :
    parseVal (Nat.succ fuel) ('\x7b' :: cs)
      = match skipWs cs with
        | '\x7d' :: rest => some (Json.obj [], rest)
        | _ => parseMembers fuel cs [] := rfl

theorem parseVal_succ_lbrace_quote (fuel : Nat) (X : List Char) :
    parseVal (Nat.succ fuel) ('\x7b' :: '\"' :: X)
      = parseMembers fuel ('\"' :: X) [] := rfl

theorem parseVal_succ_lbrack (fuel : Nat) (cs : List Char) :
    parseVal (Nat.succ fuel) ('[' :: cs)
      = match skipWs cs with
        | ']' :: rest => some (Json.arr [], rest)
        | _ => parseElems fuel cs [] := rfl

theorem parseMembers_succ_quote (fuel : Nat) (cs : List Char)
    (acc : List (List Char × Json)) :
    parseMembers (Nat.succ fuel) ('\"' :: cs) acc
      = match parseStringBody cs with
        | some (k, rest) =>
          (match skipWs rest with
           | ':' :: rest2 =>
             (match parseVal fuel rest2 with
              | some (v, rest3) =>
                (match skipWs rest3 with
                 | ',' :: rest4 => parseMembers fuel rest4 (acc ++ [(k, v)])
                 | '\x7d' :: rest4 => some (Json.obj (acc ++ [(k, v)]), rest4)
                 | _ => none)
              | none => none)
           | _ => none)
        | none => none := rfl

theorem parseElems_succ (fuel : Nat) (s : List Char) (acc : List Json) :
    parseElems (Nat.succ fuel) s acc
      = match parseVal fuel s with
        | some (v, rest) =>
          (match skipWs rest with
           | ',' :: rest2 => parseElems fuel rest2 (acc ++ [v])
           | ']' :: rest2 => some (Json.arr (acc ++ [v]), rest2)
           | _ => none)
        | none => none := rfl

/-- Round trip of a safe string value inside a larger input. -/
theorem parseVal_string (f : Nat) (s : List Char) (h : s.all safeChar = true)
    (rest : List Char) :
    parseVal (Nat.succ f) ('\"' :: (s ++ '\"' :: rest)) = some (Json.str s, rest) := by
  rw [parseVal_succ_quote, psb_ok s h rest]

/-- Round trip of a serialized field list followed by the closing brace:
parseMembers reconstructs the record's fields in order. -/
theorem pm_ser (fs : List (List Char × List Char)) :
    ∀ (fuel : Nat) (acc : List (List Char × Json)) (t : List Char), fs ≠ [] →
      (∀ p ∈ fs, p.1.all safeChar = true ∧ p.2.all safeChar = true) →
      fs.length + 1 ≤ fuel →
      parseMembers fuel (serFieldsInner fs ++ '\x7d' :: t) acc
        = some (Json.obj (acc ++ jfields fs), t) := by
  induction fs with
  | nil => intro fuel acc t hne _ _; exact absurd rfl hne
  | cons p fs' ih =>
    intro fuel acc t _ hsafe hfuel
    obtain ⟨hk, hv⟩ := hsafe p (List.mem_cons_self _ _)
    obtain ⟨f, rfl⟩ : ∃ f, fuel = Nat.succ f := ⟨fuel - 1, by omega⟩
    obtain ⟨f', rfl⟩ : ∃ f', f = Nat.succ f' := ⟨f - 1, by simp at hfuel; omega⟩
    cases fs' with
    | nil =>
      rw [serFieldsInner_one, serField_shape]
      rw [parseMembers_succ_quote, psb_ok p.1 hk]
      simp only []
      rw [skipWs_cons _ _ (by decide)]
      simp only []
      rw [parseVal_string f' p.2 hv]
      simp only []
      rw [skipWs_cons _ _ (by decide)]
      simp only []
      simp [jfields]
    | cons q fs'' =>
      have hsplit : serFieldsInner (p :: q :: fs'') ++ '\x7d' :: t
          = serField p ++ (',' :: (serFieldsInner (q :: fs'') ++ '\x7d' :: t)) := by
        rw [serFieldsInner_cons₂]
        simp
      rw [hsplit, serField_shape]
      rw [parseMembers_succ_quote, psb_ok p.1 hk]
      simp only []
      rw [skipWs_cons _ _ (by decide)]
      simp only []
      rw [parseVal_string f' p.2 hv]
      simp only []
      rw [skipWs_cons _ _ (by decide)]
      simp only []
      have hrec := ih (Nat.succ f') (acc ++ [(p.1, Json.str p.2)]) t (by simp)
        (fun q hq => hsafe q (List.mem_cons_of_mem _ hq))
        (by simp at hfuel ⊢; omega)
      rw [hrec]
      simp [jfields]

/-- Round trip of a serialized record inside a larger input. -/
theorem pv_record_ok (r : List (List Char × List Char)) (hne : r ≠ [])
    (hsafe : ∀ p ∈ r, p.1.all safeChar = true ∧ p.2.all safeChar = true) :
    ∀ (fuel : Nat) (t : List Char), r.length + 2 ≤ fuel →
      parseVal fuel (serRecord r ++ t) = some (recObj r, t) := by
  intro fuel t hfuel
  obtain ⟨f, rfl⟩ : ∃ f, fuel = Nat.succ f := ⟨fuel - 1, by omega⟩
  rw [serRecord_shape]
  cases r with
  | nil => exact absurd rfl hne
  | cons p r' =>
    obtain ⟨X, hX⟩ := serFieldsInner_cons_shape p r' ('\x7d' :: t)
    rw [hX, parseVal_succ_lbrace_quote]
    rw [← hX]
    rw [pm_ser (p :: r') f [] t (by simp) hsafe (by omega)]
    simp [recObj]

theorem serField_len (p : List Char × List Char) :
    (serField p).length = p.1.length + p.2.length + 5 := by
  simp [serField, serStr]
  omega

theorem len_serFieldsInner (fs : List (List Char × List Char)) :
    fs.length ≤ (serFieldsInner fs).length := by
  induction fs with
  | nil => simp [serFieldsInner]
  | cons p fs' ih =>
    cases fs' with
    | nil => simp [serFieldsInner_one, serField_len]
    | cons q fs'' =>
      rw [serFieldsInner_cons₂]
      simp only [List.length_cons, List.length_append]
      have := serField_len p
      simp only [List.length_cons] at ih ⊢
      omega

theorem len_serRecord (r : List (List Char × List Char)) :
    (serRecord r).length = (serFieldsInner r).length + 2 := by
  simp [serRecord]

/-- JSON.parse reconstructs a serialized record. -/
theorem jsonParse_serRecord (r : List (List Char × List Char)) (hne : r ≠ [])
    (hsafe : ∀ p ∈ r, p.1.all safeChar = true ∧ p.2.all safeChar = true) :
    jsonParse (serRecord r) = some (recObj r) := by
  unfold jsonParse
  have hlen : r.length + 2 ≤ 2 * (serRecord r).length + 2 := by
    have h1 := len_serFieldsInner r
    have h2 := len_serRecord r
    omega
  have h := pv_record_ok r hne hsafe (2 * (serRecord r).length + 2) [] hlen
  rw [List.append_nil] at h
  rw [h]
  dsimp only
  rfl

theorem parseVal_zero (s : List Char) : parseVal 0 s = none := rfl

theorem take_app_le {α : Type} (a b : List α) (n : Nat) (h : n ≤ a.length) :
    (a ++ b).take n = a.take n := by
  induction a generalizing n with
  | nil =>
    have : n = 0 := by simpa using h
    subst this
    simp
  | cons x a' ih =>
    cases n with
    | zero => simp
    | succ n' =>
      simp only [List.cons_append, List.take_succ_cons]
      rw [ih n' (by simpa using h)]

theorem take_app_add {α : Type} (a b : List α) (n : Nat) :
    (a ++ b).take (a.length + n) = a ++ b.take n := by
  induction a with
  | nil => simp
  | cons x a' ih =>
    have hl : (x :: a').length + n = Nat.succ (a'.length + n) := by
      simp [Nat.succ_add]
    rw [hl]
    simp only [List.cons_append, List.take_succ_cons]
    rw [ih]

theorem take_of_len_le {α : Type} (l : List α) (n : Nat) (h : l.length ≤ n) :
    l.take n = l := by
  induction l generalizing n with
  | nil => simp
  | cons x l' ih =>
    cases n with
    | zero => simp at h
    | succ n' =>
      simp only [List.take_succ_cons]
      rw [ih n' (by simpa using h)]

/-- parseMembers fails on every prefix of a single serialized field (the
closing brace being absent, no cut point inside the field can complete
the member list). -/
theorem pm_field_prefix_fail (p : List Char × List Char)
    (hk : p.1.all safeChar = true) (hv : p.2.all safeChar = true) :
    ∀ (fuel : Nat) (acc : List (List Char × Json)) (j : Nat),
      j ≤ (serField p).length →
      parseMembers fuel ((serField p).take j) acc = none := by
  intro fuel acc j hj
  cases fuel with
  | zero => rfl
  | succ f =>
    have hshape : serField p = '\"' :: (p.1 ++ '\"' :: ':' :: '\"' :: (p.2 ++ ['\"'])) := by
      have h := serField_shape p []
      simpa using h
    rw [serField_len] at hj
    cases j with
    | zero =>
      rw [List.take_zero]
      rfl
    | succ j' =>
      rw [hshape, List.take_succ_cons, parseMembers_succ_quote]
      by_cases hz : j' ≤ p.1.length
      · have hmid : (p.1 ++ '\"' :: ':' :: '\"' :: (p.2 ++ ['\"'])).take j' = p.1.take j' :=
          take_app_le _ _ j' hz
        rw [hmid, psb_prefix_fail p.1 hk j' hz]
      · obtain ⟨m, rfl⟩ : ∃ m, j' = p.1.length + Nat.succ m :=
          ⟨j' - p.1.length - 1, by omega⟩
        rw [take_app_add, List.take_succ_cons, psb_ok p.1 hk]
        simp only []
        cases m with
        | zero => rfl
        | succ m1 =>
          rw [List.take_succ_cons, skipWs_cons _ _ (by decide)]
          simp only []
          cases m1 with
          | zero =>
            rw [List.take_zero, parseVal_nil]
          | succ m2 =>
            rw [List.take_succ_cons]
            cases f with
            | zero => rw [parseVal_zero]
            | succ f1 =>
              rw [parseVal_succ_quote]
              by_cases hz2 : m2 ≤ p.2.length
              · rw [take_app_le _ _ m2 hz2, psb_prefix_fail p.2 hv m2 hz2]
              · have hb : m2 = p.2.length + 1 := by omega
                subst hb
                have htk : (p.2 ++ ['\"']).take (p.2.length + 1) = p.2 ++ ['\"'] :=
                  take_of_len_le _ _ (by simp)
                rw [htk, psb_ok p.2 hv []]
                rfl

/-- parseMembers fails on every prefix of a serialized field list (the
closing brace is never reached). -/
theorem pm_prefix_fail (fs : List (List Char × List Char)) :
    ∀ (fuel : Nat) (acc : List (List Char × Json)) (j : Nat), fs ≠ [] →
      (∀ p ∈ fs, p.1.all safeChar = true ∧ p.2.all safeChar = true) →
      j ≤ (serFieldsInner fs).length →
      parseMembers fuel ((serFieldsInner fs).take j) acc = none := by
  induction fs with
  | nil => intro fuel acc j hne _ _; exact absurd rfl hne
  | cons p fs' ih =>
    intro fuel acc j _ hsafe hj
    obtain ⟨hk, hv⟩ := hsafe p (List.mem_cons_self _ _)
    cases fs' with
    | nil =>
      rw [serFieldsInner_one] at hj ⊢
      exact pm_field_prefix_fail p hk hv fuel acc j hj
    | cons q fs'' =>
      rw [serFieldsInner_cons₂] at hj ⊢
      by_cases hcase : j ≤ (serField p).length
      · rw [take_app_le _ _ j hcase]
        exact pm_field_prefix_fail p hk hv fuel acc j hcase
      · obtain ⟨m, rfl⟩ : ∃ m, j = (serField p).length + Nat.succ m :=
          ⟨j - (serField p).length - 1, by omega⟩
        rw [take_app_add, List.take_succ_cons]
        cases fuel with
        | zero => rfl
        | succ f =>
          rw [serField_shape, parseMembers_succ_quote, psb_ok p.1 hk]
          simp only []
          rw [skipWs_cons _ _ (by decide)]
          simp only []
          cases f with
          | zero => rw [parseVal_zero]
          | succ f1 =>
            rw [parseVal_string f1 p.2 hv]
            simp only []
            rw [skipWs_cons _ _ (by decide)]
            simp only []
            refine ih (Nat.succ f1) (acc ++ [(p.1, Json.str p.2)]) m (by simp)
              (fun r hr => hsafe r (List.mem_cons_of_mem _ hr)) ?_
            simp only [List.length_append, List.length_cons] at hj
            omega

/-- parseVal fails on every strict nonempty prefix of a serialized
record. -/
theorem pv_trunc_fail (rN : List (List Char × List Char)) (hne : rN ≠ [])
    (hsafe : ∀ p ∈ rN, p.1.all safeChar = true ∧ p.2.all safeChar = true)
    (k : Nat) (hk1 : 1 ≤ k) (hk2 : k < (serRecord rN).length) :
    ∀ fuel, parseVal fuel ((serRecord rN).take k) = none := by
  intro fuel
  cases fuel with
  | zero => exact parseVal_zero _
  | succ f =>
    obtain ⟨k', rfl⟩ : ∃ k', k = Nat.succ k' := ⟨k - 1, by omega⟩
    have hrec : serRecord rN = '\x7b' :: (serFieldsInner rN ++ ['\x7d']) := by
      simp [serRecord]
    have hk' : k' ≤ (serFieldsInner rN).length := by
      have hlr := len_serRecord rN
      omega
    rw [hrec, List.take_succ_cons, take_app_le _ _ k' hk']
    cases rN with
    | nil => exact absurd rfl hne
    | cons p r' =>
      cases k' with
      | zero =>
        rw [List.take_zero]
        show parseMembers f [] [] = none
        exact parseMembers_nil f []
      | succ k2 =>
        obtain ⟨X, hX⟩ : ∃ X, serFieldsInner (p :: r') = '\"' :: X := by
          obtain ⟨X, hX⟩ := serFieldsInner_cons_shape p r' []
          exact ⟨X, by simpa using hX⟩
        rw [parseVal_succ_lbrace, hX, List.take_succ_cons,
          skipWs_cons _ _ (by decide)]
        show parseMembers f ('\"' :: X.take k2) [] = none
        have heq : '\"' :: X.take k2 = (serFieldsInner (p :: r')).take (Nat.succ k2) := by
          rw [hX, List.take_succ_cons]
        rw [heq]
        exact pm_prefix_fail (p :: r') f [] (Nat.succ k2) (by simp) hsafe hk'

/-- Either a serialized field list parses back to its fields, or fuel
ran out and the parse fails — no third outcome at any fuel. -/
theorem pm_ser_or (fs : List (List Char × List Char)) :
    ∀ (fuel : Nat) (acc : List (List Char × Json)) (t : List Char), fs ≠ [] →
      (∀ p ∈ fs, p.1.all safeChar = true ∧ p.2.all safeChar = true) →
      parseMembers fuel (serFieldsInner fs ++ '\x7d' :: t) acc
          = some (Json.obj (acc ++ jfields fs), t) ∨
        parseMembers fuel (serFieldsInner fs ++ '\x7d' :: t) acc = none := by
  induction fs with
  | nil => intro fuel acc t hne _; exact absurd rfl hne
  | cons p fs' ih =>
    intro fuel acc t _ hsafe
    obtain ⟨hk, hv⟩ := hsafe p (List.mem_cons_self _ _)
    cases fuel with
    | zero => right; rfl
    | succ f =>
      cases fs' with
      | nil =>
        rw [serFieldsInner_one, serField_shape, parseMembers_succ_quote, psb_ok p.1 hk]
        simp only []
        rw [skipWs_cons _ _ (by decide)]
        simp only []
        cases f with
        | zero => right; rw [parseVal_zero]
        | succ f1 =>
          rw [parseVal_string f1 p.2 hv]
          simp only []
          rw [skipWs_cons _ _ (by decide)]
          left
          simp [jfields]
      | cons q fs'' =>
        have hsplit : serFieldsInner (p :: q :: fs'') ++ '\x7d' :: t
            = serField p ++ (',' :: (serFieldsInner (q :: fs'') ++ '\x7d' :: t)) := by
          rw [serFieldsInner_cons₂]
          simp
        rw [hsplit, serField_shape, parseMembers_succ_quote, psb_ok p.1 hk]
        simp only []
        rw [skipWs_cons _ _ (by decide)]
        simp only []
        cases f with
        | zero => right; rw [parseVal_zero]
        | succ f1 =>
          rw [parseVal_string f1 p.2 hv]
          simp only []
          rw [skipWs_cons _ _ (by decide)]
          simp only []
          rcases ih (Nat.succ f1) (acc ++ [(p.1, Json.str p.2)]) t (by simp)
            (fun r hr => hsafe r (List.mem_cons_of_mem _ hr)) with h | h
          · left
            rw [h]
            simp [jfields]
          · right
            rw [h]

/-- Either a serialized record parses back to its object, or fuel ran
out — no third outcome at any fuel. -/
theorem pv_record_or (r : List (List Char × List Char)) (hne : r ≠ [])
    (hsafe : ∀ p ∈ r, p.1.all safeChar = true ∧ p.2.all safeChar = true)
    (fuel : Nat) (t : List Char) :
    parseVal fuel (serRecord r ++ t) = some (recObj r, t) ∨
      parseVal fuel (serRecord r ++ t) = none := by
  cases fuel with
  | zero => right; exact parseVal_zero _
  | succ f =>
    cases r with
    | nil => exact absurd rfl hne
    | cons p r' =>
      rw [serRecord_shape]
      obtain ⟨X, hX⟩ := serFieldsInner_cons_shape p r' ('\x7d' :: t)
      rw [hX, parseVal_succ_lbrace_quote, ← hX]
      rcases pm_ser_or (p :: r') f [] t (by simp) hsafe with h | h
      · left
        rw [h]
        simp [recObj]
      · right
        rw [h]

theorem serElemsJoin_one (r : List (List Char × List Char)) :
    serElemsJoin [r] = serRecord r := rfl

theorem serElemsJoin_cons₂ (r s : List (List Char × List Char))
    (rs : List (List (List Char × List Char))) :
    serElemsJoin (r :: s :: rs) = serRecord r ++ ',' :: serElemsJoin (s :: rs) := rfl

theorem serElemsJoin_head (d : List (List Char × List Char))
    (ds : List (List (List Char × List Char))) (u : List Char) :
    ∃ X, serElemsJoin (d :: ds) ++ u = '\x7b' :: X := by
  cases ds with
  | nil => exact ⟨_, by rw [serElemsJoin_one, serRecord_shape]⟩
  | cons e ds' =>
    have h : serElemsJoin (d :: e :: ds') ++ u
        = serRecord d ++ (',' :: (serElemsJoin (e :: ds') ++ u)) := by
      rw [serElemsJoin_cons₂]
      simp
    exact ⟨_, by rw [h, serRecord_shape]⟩

/-- parseElems fails outright on an input that no fuel can parse as a
value. -/
theorem pe_head_fail (TR : List Char) (hTR : ∀ fuel, parseVal fuel TR = none) :
    ∀ (fuel : Nat) (acc : List Json), parseElems fuel TR acc = none := by
  intro fuel acc
  cases fuel with
  | zero => rfl
  | succ f => rw [parseElems_succ, hTR f]

/-- parseElems fails on a record list followed by a comma and an
unparseable tail: the truncated last record poisons the whole array. -/
theorem pe_trunc (TR : List Char) (hTR : ∀ fuel, parseVal fuel TR = none) :
    ∀ (ds : List (List (List Char × List Char))) (d : List (List Char × List Char))
      (fuel : Nat) (acc : List Json),
      (∀ r ∈ d :: ds, SafeRec r) →
      parseElems fuel (serElemsJoin (d :: ds) ++ ',' :: TR) acc = none := by
  intro ds
  induction ds with
  | nil =>
    intro d fuel acc hsafe
    cases fuel with
    | zero => rfl
    | succ f =>
      obtain ⟨hdne, hdsafe⟩ := hsafe d (List.mem_cons_self _ _)
      rw [serElemsJoin_one, parseElems_succ]
      rcases pv_record_or d hdne hdsafe f (',' :: TR) with h | h
      · rw [h]
        simp only []
        rw [skipWs_cons _ _ (by decide)]
        simp only []
        exact pe_head_fail TR hTR f (acc ++ [recObj d])
      · rw [h]
  | cons e ds' ih =>
    intro d fuel acc hsafe
    cases fuel with
    | zero => rfl
    | succ f =>
      obtain ⟨hdne, hdsafe⟩ := hsafe d (List.mem_cons_self _ _)
      have hjoin : serElemsJoin (d :: e :: ds') ++ ',' :: TR
          = serRecord d ++ ',' :: (serElemsJoin (e :: ds') ++ ',' :: TR) := by
        rw [serElemsJoin_cons₂]
        simp
      rw [hjoin, parseElems_succ]
      rcases pv_record_or d hdne hdsafe f
          (',' :: (serElemsJoin (e :: ds') ++ ',' :: TR)) with h | h
      · rw [h]
        simp only []
        rw [skipWs_cons _ _ (by decide)]
        simp only []
        exact ih e f (acc ++ [recObj d]) (fun r hr => hsafe r (List.mem_cons_of_mem _ hr))
      · rw [h]

/-- JSON.parse rejects the truncated payload outright. -/
theorem jsonParse_payload_none (done : List (List (List Char × List Char)))
    (rN : List (List Char × List Char)) (k : Nat)
    (hdone : done ≠ []) (hsafe : ∀ r ∈ done, SafeRec r)
    (hneN : rN ≠ [])
    (hsafeN : ∀ p ∈ rN, p.1.all safeChar = true ∧ p.2.all safeChar = true)
    (hk1 : 1 ≤ k) (hk2 : k < (serRecord rN).length) :
    jsonParse (payloadOf done rN k) = none := by
  have hTR := pv_trunc_fail rN hneN hsafeN k hk1 hk2
  cases done with
  | nil => exact absurd rfl hdone
  | cons d ds =>
    have hpv : parseVal (2 * (payloadOf (d :: ds) rN k).length + 2)
        (payloadOf (d :: ds) rN k) = none := by
      have hfs : 2 * (payloadOf (d :: ds) rN k).length + 2
          = Nat.succ (2 * (payloadOf (d :: ds) rN k).length + 1) := rfl
      rw [hfs]
      show parseVal _ ('[' :: (serElemsJoin (d :: ds) ++ ',' :: (serRecord rN).take k))
          = none
      rw [parseVal_succ_lbrack]
      obtain ⟨X, hX⟩ := serElemsJoin_head d ds (',' :: (serRecord rN).take k)
      rw [hX, skipWs_cons _ _ (by decide)]
      show parseElems (2 * (payloadOf (d :: ds) rN k).length + 1) ('\x7b' :: X) [] = none
      rw [← hX]
      exact pe_trunc _ hTR ds d _ [] (fun r hr => hsafe r hr)
    unfold jsonParse
    rw [hpv]

/-- Drop trailing characters satisfying p — the
reverse-dropWhile-reverse idiom shared by jsTrim and stripTrailing. -/
def dropTrail (p : Char → Bool) (s : List Char) : List Char :=
  (s.reverse.dropWhile p).reverse

theorem jsTrim_eq (s : List Char) :
    jsTrim s = dropTrail (fun c => isWsChar c) (s.dropWhile (fun c => isWsChar c)) := rfl

theorem stripTrailing_eq (s : List Char) :
    stripTrailing s = dropTrail (fun c => !validEnder c) s := rfl

theorem dropTrail_nil (p : Char → Bool) : dropTrail p [] = [] := rfl

/-- Trailing drops never reach past a non-dropped character. -/
theorem dropTrail_append (p : Char → Bool) (a b : List Char) (c : Char)
    (hc : p c = false) :
    dropTrail p (a ++ c :: b) = a ++ c :: dropTrail p b := by
  unfold dropTrail
  rw [List.reverse_append, List.reverse_cons, List.append_assoc, List.dropWhile_append]
  by_cases h : (b.reverse.dropWhile p).isEmpty
  · rw [if_pos h]
    have h3 : b.reverse.dropWhile p = [] := by simpa using h
    have h2 : List.dropWhile p ([c] ++ a.reverse) = [c] ++ a.reverse := by
      simp [List.dropWhile_cons, hc]
    rw [h2, h3]
    simp
  · rw [if_neg h]
    simp

/-- The cons-normalised form of the previous lemma. -/
theorem dropTrail_cons_append (p : Char → Bool) (a b : List Char) (c : Char)
    (hc : p c = false) (x : Char) :
    dropTrail p (x :: (a ++ c :: b)) = x :: (a ++ c :: dropTrail p b) := by
  have h := dropTrail_append p (x :: a) b c hc
  simpa using h

theorem dropTrail_prefix (p : Char → Bool) (s : List Char) : dropTrail p s <+: s := by
  unfold dropTrail
  have h := List.dropWhile_suffix (l := s.reverse) p
  have h2 := List.reverse_prefix.mpr h
  simpa using h2

/-- The cleaning prologue on a string whose head is '[' and whose body
ends in a closing brace: only the tail after that brace is touched. -/
theorem cleanResponse_decomp (A' B : List Char) :
    cleanResponse ('[' :: (A' ++ '\x7d' :: B))
      = '[' :: (A' ++ '\x7d' :: dropTrail (fun c => !validEnder c)
          (dropTrail (fun c => isWsChar c) B)) := by
  have hdw : List.dropWhile (fun c => isWsChar c) ('[' :: (A' ++ '\x7d' :: B))
      = '[' :: (A' ++ '\x7d' :: B) := by
    simp [List.dropWhile_cons, isWsChar]
  have htrim : jsTrim ('[' :: (A' ++ '\x7d' :: B))
      = '[' :: (A' ++ '\x7d' :: dropTrail (fun c => isWsChar c) B) := by
    rw [jsTrim_eq, hdw]
    exact dropTrail_cons_append _ _ _ _ (by decide) _
  have hsl : stripLeading ('[' :: (A' ++ '\x7d' :: dropTrail (fun c => isWsChar c) B))
      = '[' :: (A' ++ '\x7d' :: dropTrail (fun c => isWsChar c) B) :=
    stripLeading_id _ _ (by decide)
  have hst : stripTrailing ('[' :: (A' ++ '\x7d' :: dropTrail (fun c => isWsChar c) B))
      = '[' :: (A' ++ '\x7d' :: dropTrail (fun c => !validEnder c)
          (dropTrail (fun c => isWsChar c) B)) := by
    rw [stripTrailing_eq]
    exact dropTrail_cons_append _ _ _ _ (by decide) _
  unfold cleanResponse
  rw [htrim, hsl, hst]

/-! ### The partial scan on a serialized record array -/

theorem ps_step_inStr (d : Int) (cur : List Char) (acc : List (List Char)) (c : Char)
    (hq : c ≠ '\"') (hb : c ≠ '\\') (hd : 0 < d) :
    partialScanStep ⟨d, true, false, cur, acc⟩ c = ⟨d, true, false, cur ++ [c], acc⟩ := by
  simp [partialScanStep, hq, hb, hd]

theorem ps_fold_inStr :
    ∀ (s : List Char), s.all safeChar = true →
      ∀ (d : Int) (cur : List Char) (acc : List (List Char)), 0 < d →
        List.foldl partialScanStep ⟨d, true, false, cur, acc⟩ s
          = ⟨d, true, false, cur ++ s, acc⟩ := by
  intro s
  induction s with
  | nil => intro _ d cur acc _; simp
  | cons c s' ih =>
    intro h d cur acc hd
    rw [List.all_cons, Bool.and_eq_true] at h
    obtain ⟨_, hq, hb, _⟩ := safeChar_spec c h.1
    rw [List.foldl_cons, ps_step_inStr d cur acc c hq hb hd, ih h.2 d _ acc hd]
    simp

theorem ps_step_quote_open (d : Int) (cur : List Char) (acc : List (List Char))
    (hd : 0 < d) :
    partialScanStep ⟨d, false, false, cur, acc⟩ '\"'
      = ⟨d, true, false, cur ++ ['\"'], acc⟩ := by
  simp [partialScanStep, hd]

theorem ps_step_quote_close (d : Int) (cur : List Char) (acc : List (List Char))
    (hd : 0 < d) :
    partialScanStep ⟨d, true, false, cur, acc⟩ '\"'
      = ⟨d, false, false, cur ++ ['\"'], acc⟩ := by
  simp [partialScanStep, hd]

/-- A whole quoted safe string is appended verbatim while a record is
open. -/
theorem ps_qstr (str : List Char) (h : str.all safeChar = true) (d : Int)
    (cur : List Char) (acc : List (List Char)) (hd : 0 < d) :
    List.foldl partialScanStep ⟨d, false, false, cur, acc⟩ (serStr str)
      = ⟨d, false, false, cur ++ serStr str, acc⟩ := by
  show List.foldl partialScanStep ⟨d, false, false, cur, acc⟩ ('\"' :: (str ++ ['\"'])) = _
  rw [List.foldl_cons, ps_step_quote_open d cur acc hd, List.foldl_append]
  rw [ps_fold_inStr str h d _ acc hd]
  simp only [List.foldl_cons, List.foldl_nil]
  rw [ps_step_quote_close d _ acc hd]
  simp [serStr]

theorem ps_step_plain (d : Int) (cur : List Char) (acc : List (List Char)) (c : Char)
    (hd : 0 < d) (h1 : c ≠ '\"') (h2 : c ≠ '\\') (h3 : c ≠ '\x7b') (h4 : c ≠ '\x7d') :
    partialScanStep ⟨d, false, false, cur, acc⟩ c = ⟨d, false, false, cur ++ [c], acc⟩ := by
  simp [partialScanStep, h1, h2, h3, h4, hd]

theorem ps_field (p : List Char × List Char)
    (hk : p.1.all safeChar = true) (hv : p.2.all safeChar = true) (d : Int)
    (cur : List Char) (acc : List (List Char)) (hd : 0 < d) :
    List.foldl partialScanStep ⟨d, false, false, cur, acc⟩ (serField p)
      = ⟨d, false, false, cur ++ serField p, acc⟩ := by
  show List.foldl partialScanStep _ (serStr p.1 ++ ':' :: serStr p.2) = _
  rw [List.foldl_append, ps_qstr p.1 hk d cur acc hd, List.foldl_cons,
    ps_step_plain d _ acc ':' hd (by decide) (by decide) (by decide) (by decide),
    ps_qstr p.2 hv d _ acc hd]
  simp [serField]

theorem ps_fieldsInner (fs : List (List Char × List Char)) :
    (∀ p ∈ fs, p.1.all safeChar = true ∧ p.2.all safeChar = true) →
    ∀ (d : Int) (cur : List Char) (acc : List (List Char)), 0 < d →
      List.foldl partialScanStep ⟨d, false, false, cur, acc⟩ (serFieldsInner fs)
        = ⟨d, false, false, cur ++ serFieldsInner fs, acc⟩ := by
  induction fs with
  | nil => intro _ d cur acc _; simp [serFieldsInner]
  | cons p fs' ih =>
    intro hsafe d cur acc hd
    obtain ⟨hk, hv⟩ := hsafe p (List.mem_cons_self _ _)
    cases fs' with
    | nil =>
      rw [serFieldsInner_one]
      exact ps_field p hk hv d cur acc hd
    | cons q fs'' =>
      rw [serFieldsInner_cons₂, List.foldl_append, ps_field p hk hv d cur acc hd,
        List.foldl_cons,
        ps_step_plain d _ acc ',' hd (by decide) (by decide) (by decide) (by decide),
        ih (fun r hr => hsafe r (List.mem_cons_of_mem _ hr)) d _ acc hd]
      simp

theorem ps_step_openRec (cur : List Char) (acc : List (List Char)) :
    partialScanStep ⟨0, false, false, cur, acc⟩ '\x7b'
      = ⟨1, false, false, ['\x7b'], acc⟩ := by
  simp [partialScanStep]

theorem ps_step_close1 (cur : List Char) (acc : List (List Char)) :
    partialScanStep ⟨1, false, false, cur, acc⟩ '\x7d'
      = ⟨0, false, false, [],
          if (jsTrim (cur ++ ['\x7d'])).isEmpty then acc
          else acc ++ [jsTrim (cur ++ ['\x7d'])]⟩ := by
  simp [partialScanStep]

/-- jsTrim leaves a serialized record alone. -/
theorem jsTrim_serRecord (r : List (List Char × List Char)) :
    jsTrim (serRecord r) = serRecord r := by
  have hsh : serRecord r = '\x7b' :: (serFieldsInner r ++ '\x7d' :: []) := by
    simp [serRecord]
  rw [hsh, jsTrim_eq]
  have hdw : List.dropWhile (fun c => isWsChar c)
      ('\x7b' :: (serFieldsInner r ++ '\x7d' :: []))
      = '\x7b' :: (serFieldsInner r ++ '\x7d' :: []) := by
    simp [List.dropWhile_cons, isWsChar]
  rw [hdw, dropTrail_cons_append _ _ _ _ (by decide), dropTrail_nil]

/-- Scanning a whole serialized record from the neutral depth pushes
exactly that record. -/
theorem ps_record (r : List (List Char × List Char)) (hne : r ≠ [])
    (hsafe : ∀ p ∈ r, p.1.all safeChar = true ∧ p.2.all safeChar = true)
    (cur0 : List Char) (acc : List (List Char)) :
    List.foldl partialScanStep ⟨0, false, false, cur0, acc⟩ (serRecord r)
      = ⟨0, false, false, [], acc ++ [serRecord r]⟩ := by
  have hsh : serRecord r = '\x7b' :: (serFieldsInner r ++ ['\x7d']) := by
    simp [serRecord]
  rw [hsh, List.foldl_cons, ps_step_openRec cur0 acc, List.foldl_append,
    ps_fieldsInner r hsafe 1 _ acc (by decide)]
  simp only [List.foldl_cons, List.foldl_nil]
  rw [ps_step_close1 _ acc]
  have hcand : (['\x7b'] ++ serFieldsInner r) ++ ['\x7d']
      = serRecord r := by
    simp [serRecord]
  rw [hcand, jsTrim_serRecord]
  have hne2 : (serRecord r).isEmpty = false := by
    rw [hsh]
    rfl
  rw [hne2]
  simp [serRecord]

theorem ps_step_sep0 (cur : List Char) (acc : List (List Char)) (c : Char)
    (h1 : c ≠ '\"') (h2 : c ≠ '\\') (h3 : c ≠ '\x7b') (h4 : c ≠ '\x7d') :
    partialScanStep ⟨0, false, false, cur, acc⟩ c = ⟨0, false, false, cur, acc⟩ := by
  simp [partialScanStep, h1, h2, h3, h4]

/-- Scanning the comma-joined records pushes exactly the records, in
order. -/
theorem ps_join (ds : List (List (List Char × List Char))) :
    (∀ r ∈ ds, SafeRec r) → ∀ (acc : List (List Char)),
      List.foldl partialScanStep ⟨0, false, false, [], acc⟩ (serElemsJoin ds)
        = ⟨0, false, false, [], acc ++ ds.map serRecord⟩ := by
  induction ds with
  | nil => intro _ acc; simp [serElemsJoin]
  | cons d ds' ih =>
    intro hsafe acc
    obtain ⟨hdne, hdsafe⟩ := hsafe d (List.mem_cons_self _ _)
    cases ds' with
    | nil =>
      rw [serElemsJoin_one, ps_record d hdne hdsafe [] acc]
      simp
    | cons e ds'' =>
      rw [serElemsJoin_cons₂, List.foldl_append, ps_record d hdne hdsafe [] acc,
        List.foldl_cons,
        ps_step_sep0 [] _ ',' (by decide) (by decide) (by decide) (by decide),
        ih (fun r hr => hsafe r (List.mem_cons_of_mem _ hr)) _]
      simp

/-- A step on any character other than a closing brace never pushes a
candidate. -/
theorem ps_acc_step (st : PScanSt) (c : Char) (h : c ≠ '\x7d') :
    (partialScanStep st c).acc = st.acc := by
  cases st with
  | mk d i e cu ac =>
    simp [partialScanStep, h, apply_ite (PScanSt.acc)]

theorem ps_fold_acc : ∀ (u : List Char), '\x7d' ∉ u →
    ∀ st : PScanSt, (List.foldl partialScanStep st u).acc = st.acc := by
  intro u
  induction u with
  | nil => intro _ st; rfl
  | cons c u' ih =>
    intro h st
    have hc : c ≠ '\x7d' := fun he => h (he ▸ List.mem_cons_self _ _)
    have hu' : '\x7d' ∉ u' := fun hm => h (List.mem_cons_of_mem _ hm)
    rw [List.foldl_cons, ih hu' (partialScanStep st c), ps_acc_step st c hc]

theorem no_brace_of_all_safe (s : List Char) (h : s.all safeChar = true) :
    '\x7d' ∉ s := by
  intro hm
  have hc := (List.all_eq_true.mp h) _ hm
  obtain ⟨_, _, _, hne⟩ := safeChar_spec _ hc
  exact hne rfl

theorem serStr_no_brace (s : List Char) (h : s.all safeChar = true) :
    '\x7d' ∉ serStr s := by
  intro hm
  have hm' : '\x7d' ∈ s := by simpa [serStr] using hm
  exact no_brace_of_all_safe s h hm'

theorem serField_no_brace (p : List Char × List Char)
    (hk : p.1.all safeChar = true) (hv : p.2.all safeChar = true) :
    '\x7d' ∉ serField p := by
  intro hm
  unfold serField at hm
  rcases List.mem_append.mp hm with h1 | h1
  · exact serStr_no_brace p.1 hk h1
  · rcases List.mem_cons.mp h1 with h2 | h2
    · exact absurd h2 (by decide)
    · exact serStr_no_brace p.2 hv h2

theorem serFieldsInner_no_brace (fs : List (List Char × List Char))
    (hsafe : ∀ p ∈ fs, p.1.all safeChar = true ∧ p.2.all safeChar = true) :
    '\x7d' ∉ serFieldsInner fs := by
  induction fs with
  | nil => simp [serFieldsInner]
  | cons p fs' ih =>
    obtain ⟨hk, hv⟩ := hsafe p (List.mem_cons_self _ _)
    cases fs' with
    | nil =>
      rw [serFieldsInner_one]
      exact serField_no_brace p hk hv
    | cons q fs'' =>
      rw [serFieldsInner_cons₂]
      intro hm
      rcases List.mem_append.mp hm with h1 | h1
      · exact serField_no_brace p hk hv h1
      · rcases List.mem_cons.mp h1 with h2 | h2
        · exact absurd h2 (by decide)
        · exact ih (fun r hr => hsafe r (List.mem_cons_of_mem _ hr)) h2

/-- No closing brace occurs strictly inside a truncated record prefix. -/
theorem trunc_no_brace (rN : List (List Char × List Char))
    (hsafeN : ∀ p ∈ rN, p.1.all safeChar = true ∧ p.2.all safeChar = true)
    (k : Nat) (hk2 : k < (serRecord rN).length) :
    '\x7d' ∉ (serRecord rN).take k := by
  intro hmem
  have hlen := len_serRecord rN
  cases k with
  | zero => simp at hmem
  | succ k' =>
    have hsh : serRecord rN = '\x7b' :: (serFieldsInner rN ++ ['\x7d']) := by
      simp [serRecord]
    rw [hsh, List.take_succ_cons] at hmem
    have hk'' : k' ≤ (serFieldsInner rN).length := by omega
    rw [take_app_le _ _ k' hk''] at hmem
    rcases List.mem_cons.mp hmem with h | h
    · exact absurd h (by decide)
    · exact serFieldsInner_no_brace rN hsafeN (List.take_subset k' _ h)

/-! ### The candidate repair pass is the identity on a serialized
record -/

theorem drop_takeWhile (p : Char → Bool) :
    ∀ (s : List Char), s.drop ((s.takeWhile p).length) = s.dropWhile p := by
  intro s
  induction s with
  | nil => rfl
  | cons c s' ih =>
    by_cases h : p c
    · simp [List.takeWhile_cons, List.dropWhile_cons, h, ih]
    · simp [List.takeWhile_cons, List.dropWhile_cons, h]

theorem head_dropWs_ne : ∀ (s : List Char), '\x7d' ∉ s →
    ((s ++ ['\"', '\x7d']).dropWhile (fun c => isWsChar c)).head? ≠ some '\x7d' := by
  intro s
  induction s with
  | nil => intro _; decide
  | cons c s' ih =>
    intro h
    have hc : c ≠ '\x7d' := fun he => h (he ▸ List.mem_cons_self _ _)
    have hs' : '\x7d' ∉ s' := fun hm => h (List.mem_cons_of_mem _ hm)
    by_cases hw : isWsChar c
    · simpa [List.dropWhile_cons, hw] using ih hs'
    · simp [List.dropWhile_cons, hw]
      exact fun he => absurd he hc

/-- A comma followed (after whitespace) by a closing brace never occurs:
the guard under which the global comma-brace replace is the identity. -/
def noCommaBrace : List Char → Bool
  | [] => true
  | c :: cs =>
    if c = ',' then
      if (cs.drop ((cs.takeWhile (isWsChar ·)).length)).head? = some '\x7d' then false
      else noCommaBrace cs
    else noCommaBrace cs

theorem rcwbF_id : ∀ (s : List Char), noCommaBrace s = true →
    ∀ fuel, rcwbF fuel s = s := by
  intro s
  induction s with
  | nil => intro _ fuel; cases fuel <;> rfl
  | cons c cs ih =>
    intro h fuel
    cases fuel with
    | zero => rfl
    | succ f =>
      by_cases hc : c = ','
      · subst hc
        have h' := h
        simp [noCommaBrace] at h'
        obtain ⟨hh, hrec⟩ := h'
        have hh' : (cs.drop ((cs.takeWhile (fun c => isWsChar c)).length)).head?
            ≠ some '\x7d' := by
          rw [List.head?_drop]
          exact hh
        show (match cs.drop ((cs.takeWhile (fun c => isWsChar c)).length) with
              | '\x7d' :: rest => '\x7d' :: rcwbF f rest
              | _ => ',' :: rcwbF f cs) = ',' :: cs
        split
        · rename_i rest heq
          exact absurd (by rw [heq]; rfl) hh'
        · rw [ih hrec f]
      · simp only [rcwbF]
        rw [if_neg hc]
        have hrec : noCommaBrace cs = true := by simpa [noCommaBrace, hc] using h
        rw [ih hrec f]

theorem ncb_safe : ∀ (s : List Char), '\x7d' ∉ s →
    noCommaBrace (s ++ ['\"', '\x7d']) = true := by
  intro s
  induction s with
  | nil => intro _; decide
  | cons c s' ih =>
    intro h
    have hs' : '\x7d' ∉ s' := fun hm => h (List.mem_cons_of_mem _ hm)
    by_cases hcc : c = ','
    · subst hcc
      have hdt := drop_takeWhile (fun c => isWsChar c) (s' ++ ['\"', '\x7d'])
      have hh := head_dropWs_ne s' hs'
      simp [noCommaBrace, hdt, hh, ih hs']
    · simp [noCommaBrace, hcc, ih hs']

theorem serFieldsInner_ends_quote (fs : List (List Char × List Char)) :
    fs ≠ [] → ∃ X, serFieldsInner fs = X ++ ['\"'] := by
  induction fs with
  | nil => intro h; exact absurd rfl h
  | cons p fs' ih =>
    intro _
    cases fs' with
    | nil =>
      exact ⟨serStr p.1 ++ ':' :: '\"' :: p.2, by
        rw [serFieldsInner_one]
        simp [serField, serStr]⟩
    | cons q fs'' =>
      obtain ⟨X, hX⟩ := ih (by simp)
      exact ⟨serField p ++ ',' :: X, by rw [serFieldsInner_cons₂, hX]; simp⟩

theorem ncb_serRecord (r : List (List Char × List Char)) (hne : r ≠ [])
    (hsafe : ∀ p ∈ r, p.1.all safeChar = true ∧ p.2.all safeChar = true) :
    noCommaBrace (serRecord r) = true := by
  obtain ⟨X, hX⟩ := serFieldsInner_ends_quote r hne
  have hXs : '\x7d' ∉ '\x7b' :: X := by
    intro hm
    rcases List.mem_cons.mp hm with h1 | h1
    · exact absurd h1 (by decide)
    · have h2 : '\x7d' ∈ serFieldsInner r := by
        rw [hX]
        exact List.mem_append.mpr (Or.inl h1)
      exact serFieldsInner_no_brace r hsafe h2
  have hsh : serRecord r = ('\x7b' :: X) ++ ['\"', '\x7d'] := by
    simp [serRecord, hX]
  rw [hsh]
  exact ncb_safe _ hXs

theorem rcwb_serRecord (r : List (List Char × List Char)) (hne : r ≠ [])
    (hsafe : ∀ p ∈ r, p.1.all safeChar = true ∧ p.2.all safeChar = true) :
    replaceCommaWsBrace (serRecord r) = serRecord r := by
  unfold replaceCommaWsBrace
  exact rcwbF_id _ (ncb_serRecord r hne hsafe) _

theorem stcw_brace (s : List Char) :
    stripTrailingCommaWs (s ++ ['\x7d']) = s ++ ['\x7d'] := by
  simp only [stripTrailingCommaWs]
  rw [show (s ++ ['\x7d']).reverse = '\x7d' :: s.reverse from by simp]
  rw [show ('\x7d' :: s.reverse).takeWhile (isWsChar ·) = [] from by
    simp [List.takeWhile_cons, isWsChar]]
  rfl

theorem cleanCandidate_serRecord (r : List (List Char × List Char)) (hne : r ≠ [])
    (hsafe : ∀ p ∈ r, p.1.all safeChar = true ∧ p.2.all safeChar = true) :
    cleanCandidate (serRecord r) = serRecord r := by
  unfold cleanCandidate
  rw [rcwb_serRecord r hne hsafe]
  have hsh : serRecord r = ('\x7b' :: serFieldsInner r) ++ ['\x7d'] := by
    simp [serRecord]
  rw [hsh, stcw_brace]

theorem serElemsJoin_ends (d : List (List Char × List Char)) :
    ∀ (ds : List (List (List Char × List Char))),
      ∃ A', serElemsJoin (d :: ds) = A' ++ ['\x7d'] := by
  intro ds
  induction ds generalizing d with
  | nil => exact ⟨'\x7b' :: serFieldsInner d, by simp [serElemsJoin_one, serRecord]⟩
  | cons e ds' ih =>
    obtain ⟨A'', hA⟩ := ih e
    exact ⟨serRecord d ++ ',' :: A'', by rw [serElemsJoin_cons₂, hA]; simp⟩

/-- The partial scan on the cleaned truncated payload finds exactly the
complete records' texts, in order. -/
theorem partialScan_payload (d : List (List Char × List Char))
    (ds : List (List (List Char × List Char)))
    (rN : List (List Char × List Char)) (k : Nat)
    (hsafe : ∀ r ∈ d :: ds, SafeRec r)
    (hsafeN : ∀ p ∈ rN, p.1.all safeChar = true ∧ p.2.all safeChar = true)
    (hk2 : k < (serRecord rN).length) :
    partialScan (cleanResponse (payloadOf (d :: ds) rN k))
      = (d :: ds).map serRecord := by
  obtain ⟨A', hA⟩ := serElemsJoin_ends d ds
  have hpay : payloadOf (d :: ds) rN k
      = '[' :: (A' ++ '\x7d' :: (',' :: (serRecord rN).take k)) := by
    unfold payloadOf
    rw [hA]
    simp
  rw [hpay, cleanResponse_decomp]
  set u := dropTrail (fun c => !validEnder c)
    (dropTrail (fun c => isWsChar c) (',' :: (serRecord rN).take k)) with hu
  unfold partialScan
  rw [show pScanInit = (⟨0, false, false, [], []⟩ : PScanSt) from rfl]
  rw [List.foldl_cons,
    ps_step_sep0 [] [] '[' (by decide) (by decide) (by decide) (by decide)]
  have hre : A' ++ '\x7d' :: u = serElemsJoin (d :: ds) ++ u := by
    rw [hA]
    simp
  rw [hre, List.foldl_append, ps_join (d :: ds) hsafe []]
  have hubrace : '\x7d' ∉ u := by
    intro hm
    have h1 : u <+: dropTrail (fun c => isWsChar c) (',' :: (serRecord rN).take k) :=
      dropTrail_prefix _ _
    have h2 : dropTrail (fun c => isWsChar c) (',' :: (serRecord rN).take k)
        <+: (',' :: (serRecord rN).take k) := dropTrail_prefix _ _
    rcases List.mem_cons.mp (h2.subset (h1.subset hm)) with h4 | h4
    · exact absurd h4 (by decide)
    · exact trunc_no_brace rN hsafeN k hk2 h4
  simp only [List.nil_append]
  rw [ps_fold_acc u hubrace ⟨0, false, false, [], (d :: ds).map serRecord⟩]

/-- One scanned record candidate survives repair, re-parse and
validation, contributing its completed slot. -/
theorem pc_record (st : PartialSt) (d : List (List Char × List Char))
    (hS : SafeRec d) (hG : GoodRec d) :
    processCandidate st (serRecord d)
      = ⟨st.sessions ++ [completeSession (recObj d)],
         insertUniq st.locs ((lookupField (recObj d) kLocation).getD Json.null)⟩ := by
  unfold processCandidate
  rw [cleanCandidate_serRecord d hS.1 hS.2, jsonParse_serRecord d hS.1 hS.2]
  unfold keepIfValid
  simp [hG.1, hG.2]

/-- The candidate loop over the scanned records appends exactly their
completed slots. -/
theorem pc_fold (ds : List (List (List Char × List Char))) :
    ∀ (st : PartialSt), (∀ d ∈ ds, SafeRec d ∧ GoodRec d) →
      ∃ L, List.foldl processCandidate st (ds.map serRecord)
        = ⟨st.sessions ++ ds.map (fun d => completeSession (recObj d)), L⟩ := by
  induction ds with
  | nil => intro st _; exact ⟨st.locs, by cases st; simp⟩
  | cons d ds' ih =>
    intro st h
    obtain ⟨hS, hG⟩ := h d (List.mem_cons_self _ _)
    rw [List.map_cons, List.foldl_cons, pc_record st d hS hG]
    obtain ⟨L, hL⟩ := ih _ (fun r hr => h r (List.mem_cons_of_mem _ hr))
    refine ⟨L, ?_⟩
    rw [hL]
    simp

/-- extractPartialScheduleData on the truncated payload recovers exactly
the complete records, completed with the documented defaults. -/
theorem extractPartial_payload (d : List (List Char × List Char))
    (ds : List (List (List Char × List Char)))
    (rN : List (List Char × List Char)) (k : Nat)
    (hsafe : ∀ r ∈ d :: ds, SafeRec r) (hgood : ∀ r ∈ d :: ds, GoodRec r)
    (hsafeN : ∀ p ∈ rN, p.1.all safeChar = true ∧ p.2.all safeChar = true)
    (hk2 : k < (serRecord rN).length) :
    (extractPartialScheduleData (payloadOf (d :: ds) rN k)).schedule
      = (d :: ds).map (fun r => completeSession (recObj r)) := by
  simp only [extractPartialScheduleData]
  rw [partialScan_payload d ds rN k hsafe hsafeN hk2]
  obtain ⟨L, hL⟩ := pc_fold (d :: ds) ⟨[], []⟩ (fun r hr => ⟨hsafe r hr, hgood r hr⟩)
  rw [hL]
  simp

/-- C1 (amended): for a payload that is a serialized JSON array of
well-formed SessionSlot records truncated at an arbitrary offset
strictly inside the LAST record, with at least one complete record
before it (and no wrapper markers in the text), parseAgentResponse
falls back to partial recovery and returns exactly the complete
preceding records — each completed with the documented defaults, never
a corrupted last record — with totalSessions equal to their number and
isPartial = true.  (Truncation inside the FIRST record instead yields a
failure without the partial flag, as the counterexample shows.) -/
theorem truncation_recovery_amended
    (done : List (List (List Char × List Char)))
    (rN : List (List Char × List Char)) (k : Nat)
    (hdone : done ≠ [])
    (hsafe : ∀ r ∈ done, SafeRec r) (hgood : ∀ r ∈ done, GoodRec r)
    (hsafeN : SafeRec rN)
    (hk1 : 1 ≤ k) (hk2 : k < (serRecord rN).length)
    (hmark : (containsSub (payloadOf done rN k) kTypeTextMarker &&
        containsSub (payloadOf done rN k) kValueMarker) = false) :
    (parseAgentResponse (payloadOf done rN k)).success = true ∧
    (parseAgentResponse (payloadOf done rN k)).schedule
      = some (done.map (fun r => completeSession (recObj r))) ∧
    (parseAgentResponse (payloadOf done rN k)).totalSessions = some done.length ∧
    (parseAgentResponse (payloadOf done rN k)).isPartial = some true := by
  cases done with
  | nil => exact absurd rfl hdone
  | cons d ds =>
    have hPD := extractPartial_payload d ds rN k hsafe hgood hsafeN.2 hk2
    have hjp := jsonParse_payload_none (d :: ds) rN k (by simp) hsafe
      hsafeN.1 hsafeN.2 hk1 hk2
    have hempty : (payloadOf (d :: ds) rN k).isEmpty = false := rfl
    have hpar : parseAgentResponse (payloadOf (d :: ds) rN k)
        = parseDirect (payloadOf (d :: ds) rN k) := by
      unfold parseAgentResponse
      simp [hempty, hmark]
    rw [hpar]
    unfold parseDirect
    rw [hjp]
    simp [hPD]

/-- The complete records of the witness payload (the spec's truncated
example). -/
def exC1done : List (List (List Char × List Char)) :=
  [[("sessionName".toList, "A".toList), ("location".toList, "Room1".toList)]]

/-- The truncated second record of the witness payload. -/
def exC1rN : List (List Char × List Char) := [("sessionName".toList, "B".toList)]

/-- Witness for the amended C1 theorem: the spec's own truncated example
is the serialized one-record-plus-truncation payload, and recovery keeps
exactly record A, flagged partial. -/
theorem truncation_recovery_amended_witness :
    (payloadOf exC1done exC1rN 18 = exTruncPayload ∧
      exC1done ≠ [] ∧ (∀ r ∈ exC1done, SafeRec r) ∧ (∀ r ∈ exC1done, GoodRec r) ∧
      SafeRec exC1rN ∧ 1 ≤ 18 ∧ 18 < (serRecord exC1rN).length ∧
      (containsSub (payloadOf exC1done exC1rN 18) kTypeTextMarker &&
        containsSub (payloadOf exC1done exC1rN 18) kValueMarker) = false) ∧
    ((parseAgentResponse (payloadOf exC1done exC1rN 18)).success = true ∧
     (parseAgentResponse (payloadOf exC1done exC1rN 18)).schedule
       = some (exC1done.map (fun r => completeSession (recObj r))) ∧
     (parseAgentResponse (payloadOf exC1done exC1rN 18)).totalSessions
       = some exC1done.length ∧
     (parseAgentResponse (payloadOf exC1done exC1rN 18)).isPartial = some true) :=
  ⟨⟨by decide, by decide, by decide, by decide, by decide, by decide, by decide,
    by decide⟩,
   truncation_recovery_amended exC1done exC1rN 18 (by decide) (by decide) (by decide)
     (by decide) (by decide) (by decide) (by decide)⟩

/-! ### Concatenated serialized string arrays (C2)

The claim quantifies over payloads made of two independently valid JSON
arrays, optionally separated by textual marker material.  The arrays are
modelled as arrays of unescaped strings (arrays of objects hit the
object pattern first, as the counterexample shows); the separator may be
any text free of structural characters. -/

/-- An element character: needs no escaping and opens no object. -/
def c2char (c : Char) : Bool := safeChar c && c ≠ '\x7b'

/-- A separator character: opens and closes no string, array or
object. -/
def sepSafe (c : Char) : Bool :=
  !(c = '[' || c = ']' || c = '\x7b' || c = '\x7d' || c = '\"' || c = '\\')

/-- Rendering of a JSON array of unescaped strings, exactly as
JSON.stringify renders it. -/
def serStrArr (xs : List (List Char)) : List Char :=
  '[' :: (commaJoin (xs.map serStr) ++ [']'])

theorem c2char_spec (c : Char) (h : c2char c = true) :
    safeChar c = true ∧ c ≠ '\x7b' := by
  simp only [c2char, Bool.and_eq_true, decide_eq_true_eq] at h
  exact ⟨h.1, h.2⟩

theorem sepSafe_spec (c : Char) (h : sepSafe c = true) :
    c ≠ '[' ∧ c ≠ ']' ∧ c ≠ '\x7b' ∧ c ≠ '\x7d' ∧ c ≠ '\"' ∧ c ≠ '\\' := by
  simp only [sepSafe, Bool.or_eq_true, Bool.not_eq_true', Bool.or_eq_false_iff,
    decide_eq_false_iff_not] at h
  exact ⟨h.1.1.1.1.1, h.1.1.1.1.2, h.1.1.1.2, h.1.1.2, h.1.2, h.2⟩

theorem c2_all_safe (s : List Char) (h : s.all c2char = true) :
    s.all safeChar = true := by
  rw [List.all_eq_true] at h ⊢
  exact fun x hx => (c2char_spec x (h x hx)).1

theorem commaJoin_one (x : List Char) : commaJoin [x] = x := rfl

theorem commaJoin_cons₂ (x y : List Char) (ys : List (List Char)) :
    commaJoin (x :: y :: ys) = x ++ ',' :: commaJoin (y :: ys) := rfl

theorem serStr_shape (s u : List Char) : serStr s ++ u = '\"' :: (s ++ '\"' :: u) := by
  simp [serStr]

theorem serStrArr_shape (xs : List (List Char)) (u : List Char) :
    serStrArr xs ++ u = '[' :: (commaJoin (xs.map serStr) ++ ']' :: u) := by
  simp [serStrArr]

theorem parseVal_succ_lbrack_quote (fuel : Nat) (X : List Char) :
    parseVal (Nat.succ fuel) ('[' :: '\"' :: X)
      = parseElems fuel ('\"' :: X) [] := rfl

theorem commaJoin_strs_shape (x : List Char) (xs : List (List Char)) (u : List Char) :
    ∃ X, commaJoin ((x :: xs).map serStr) ++ u = '\"' :: X := by
  cases xs with
  | nil =>
    exact ⟨_, by rw [List.map_cons, List.map_nil, commaJoin_one, serStr_shape]⟩
  | cons y ys =>
    have h : commaJoin ((x :: y :: ys).map serStr) ++ u
        = serStr x ++ (',' :: (commaJoin ((y :: ys).map serStr) ++ u)) := by
      simp only [List.map_cons, commaJoin_cons₂]
      simp
    exact ⟨_, by rw [h, serStr_shape]⟩

/-- Round trip of the element list of a serialized string array. -/
theorem pe_strs (xs : List (List Char)) :
    ∀ (fuel : Nat) (acc : List Json) (t : List Char), xs ≠ [] →
      (∀ s ∈ xs, s.all safeChar = true) → xs.length + 1 ≤ fuel →
      parseElems fuel (commaJoin (xs.map serStr) ++ ']' :: t) acc
        = some (Json.arr (acc ++ xs.map Json.str), t) := by
  induction xs with
  | nil => intro fuel acc t hne _ _; exact absurd rfl hne
  | cons x xs' ih =>
    intro fuel acc t _ hsafe hfuel
    have hx := hsafe x (List.mem_cons_self _ _)
    obtain ⟨f, rfl⟩ : ∃ f, fuel = Nat.succ f := ⟨fuel - 1, by omega⟩
    obtain ⟨f', rfl⟩ : ∃ f', f = Nat.succ f' := ⟨f - 1, by simp at hfuel; omega⟩
    cases xs' with
    | nil =>
      rw [List.map_cons, List.map_nil, commaJoin_one, serStr_shape, parseElems_succ,
        parseVal_string f' x hx]
      simp only []
      rw [skipWs_cons _ _ (by decide)]
      simp
    | cons y ys =>
      have hsplit : commaJoin ((x :: y :: ys).map serStr) ++ ']' :: t
          = serStr x ++ (',' :: (commaJoin ((y :: ys).map serStr) ++ ']' :: t)) := by
        simp only [List.map_cons, commaJoin_cons₂]
        simp
      rw [hsplit, serStr_shape, parseElems_succ, parseVal_string f' x hx]
      simp only []
      rw [skipWs_cons _ _ (by decide)]
      simp only []
      rw [ih (Nat.succ f') (acc ++ [Json.str x]) t (by simp)
        (fun s hs => hsafe s (List.mem_cons_of_mem _ hs))
        (by simp at hfuel ⊢; omega)]
      simp

/-- Round trip of a serialized string array inside a larger input. -/
theorem pv_strArr (xs : List (List Char)) (hne : xs ≠ [])
    (hsafe : ∀ s ∈ xs, s.all safeChar = true) :
    ∀ (fuel : Nat) (t : List Char), xs.length + 2 ≤ fuel →
      parseVal fuel (serStrArr xs ++ t) = some (Json.arr (xs.map Json.str), t) := by
  intro fuel t hfuel
  obtain ⟨f, rfl⟩ : ∃ f, fuel = Nat.succ f := ⟨fuel - 1, by omega⟩
  rw [serStrArr_shape]
  cases xs with
  | nil => exact absurd rfl hne
  | cons x xs' =>
    obtain ⟨X, hX⟩ := commaJoin_strs_shape x xs' (']' :: t)
    rw [hX, parseVal_succ_lbrack_quote, ← hX]
    rw [pe_strs (x :: xs') f [] t (by simp) hsafe (by omega)]
    simp

theorem len_commaJoin_strs (xs : List (List Char)) :
    xs.length ≤ (commaJoin (xs.map serStr)).length := by
  induction xs with
  | nil => simp
  | cons x xs' ih =>
    cases xs' with
    | nil => simp [commaJoin_one, serStr]
    | cons y ys =>
      simp only [List.map_cons, commaJoin_cons₂]
      simp only [List.map_cons] at ih
      have hs : (serStr x).length = x.length + 2 := by simp [serStr]
      simp only [List.length_append, List.length_cons] at ih ⊢
      omega

/-- JSON.parse reconstructs a serialized string array. -/
theorem jsonParse_serStrArr (xs : List (List Char)) (hne : xs ≠ [])
    (hsafe : ∀ s ∈ xs, s.all safeChar = true) :
    jsonParse (serStrArr xs) = some (Json.arr (xs.map Json.str)) := by
  unfold jsonParse
  have hlen : xs.length + 2 ≤ 2 * (serStrArr xs).length + 2 := by
    have h1 := len_commaJoin_strs xs
    have h2 : (serStrArr xs).length = (commaJoin (xs.map serStr)).length + 2 := by
      simp [serStrArr]
    omega
  have h := pv_strArr xs hne hsafe (2 * (serStrArr xs).length + 2) [] hlen
  rw [List.append_nil] at h
  rw [h]
  rfl

/-! ### The array scanner on two concatenated string arrays -/

theorem sc_step_inStr (d : Int) (buf : List Char) (acc : List (List Char)) (c : Char)
    (hq : c ≠ '\"') (hb : c ≠ '\\') :
    scanStep '[' ']' ⟨d, true, false, some buf, acc⟩ c
      = ⟨d, true, false, some (buf ++ [c]), acc⟩ := by
  simp [scanStep, hq, hb]

theorem sc_fold_inStr :
    ∀ (s : List Char), s.all safeChar = true →
      ∀ (d : Int) (buf : List Char) (acc : List (List Char)),
        List.foldl (scanStep '[' ']') ⟨d, true, false, some buf, acc⟩ s
          = ⟨d, true, false, some (buf ++ s), acc⟩ := by
  intro s
  induction s with
  | nil => intro _ d buf acc; simp
  | cons c s' ih =>
    intro h d buf acc
    rw [List.all_cons, Bool.and_eq_true] at h
    obtain ⟨_, hq, hb, _⟩ := safeChar_spec c h.1
    rw [List.foldl_cons, sc_step_inStr d buf acc c hq hb, ih h.2 d _ acc]
    simp

theorem sc_step_quote_open (d : Int) (buf : List Char) (acc : List (List Char)) :
    scanStep '[' ']' ⟨d, false, false, some buf, acc⟩ '\"'
      = ⟨d, true, false, some (buf ++ ['\"']), acc⟩ := by
  simp [scanStep]

theorem sc_step_quote_close (d : Int) (buf : List Char) (acc : List (List Char)) :
    scanStep '[' ']' ⟨d, true, false, some buf, acc⟩ '\"'
      = ⟨d, false, false, some (buf ++ ['\"']), acc⟩ := by
  simp [scanStep]

theorem sc_qstr (s : List Char) (h : s.all safeChar = true) (d : Int)
    (buf : List Char) (acc : List (List Char)) :
    List.foldl (scanStep '[' ']') ⟨d, false, false, some buf, acc⟩ (serStr s)
      = ⟨d, false, false, some (buf ++ serStr s), acc⟩ := by
  show List.foldl (scanStep '[' ']') _ ('\"' :: (s ++ ['\"'])) = _
  rw [List.foldl_cons, sc_step_quote_open d buf acc, List.foldl_append,
    sc_fold_inStr s h d _ acc]
  simp only [List.foldl_cons, List.foldl_nil]
  rw [sc_step_quote_close d _ acc]
  simp [serStr]

theorem sc_step_plain (d : Int) (buf : List Char) (acc : List (List Char)) (c : Char)
    (h1 : c ≠ '\"') (h2 : c ≠ '\\') (h3 : c ≠ '[') (h4 : c ≠ ']') :
    scanStep '[' ']' ⟨d, false, false, some buf, acc⟩ c
      = ⟨d, false, false, some (buf ++ [c]), acc⟩ := by
  simp [scanStep, h1, h2, h3, h4]

theorem sc_elems (xs : List (List Char)) :
    (∀ s ∈ xs, s.all safeChar = true) →
    ∀ (d : Int) (buf : List Char) (acc : List (List Char)),
      List.foldl (scanStep '[' ']') ⟨d, false, false, some buf, acc⟩
          (commaJoin (xs.map serStr))
        = ⟨d, false, false, some (buf ++ commaJoin (xs.map serStr)), acc⟩ := by
  induction xs with
  | nil => intro _ d buf acc; simp [commaJoin]
  | cons x xs' ih =>
    intro hsafe d buf acc
    have hx := hsafe x (List.mem_cons_self _ _)
    cases xs' with
    | nil =>
      rw [List.map_cons, List.map_nil, commaJoin_one]
      exact sc_qstr x hx d buf acc
    | cons y ys =>
      simp only [List.map_cons, commaJoin_cons₂]
      rw [List.foldl_append, sc_qstr x hx d buf acc, List.foldl_cons,
        sc_step_plain d _ acc ',' (by decide) (by decide) (by decide) (by decide)]
      have ih' := ih (fun s hs => hsafe s (List.mem_cons_of_mem _ hs)) d
        ((buf ++ serStr x) ++ [',']) acc
      simp only [List.map_cons] at ih'
      rw [ih']
      simp

theorem sc_step_open0 (acc : List (List Char)) :
    scanStep '[' ']' ⟨0, false, false, none, acc⟩ '['
      = ⟨1, false, false, some ['['], acc⟩ := by
  simp [scanStep]

theorem sc_step_close1 (buf : List Char) (acc : List (List Char)) :
    scanStep '[' ']' ⟨1, false, false, some buf, acc⟩ ']'
      = ⟨0, false, false, none,
          if (jsonParse (buf ++ [']'])).isSome then acc ++ [buf ++ [']']]
          else acc⟩ := by
  simp [scanStep]

/-- Scanning a whole serialized string array from the neutral state
pushes exactly that array (it revalidates under JSON.parse). -/
theorem sc_arr (xs : List (List Char)) (hne : xs ≠ [])
    (hsafe : ∀ s ∈ xs, s.all safeChar = true) (acc : List (List Char)) :
    List.foldl (scanStep '[' ']') ⟨0, false, false, none, acc⟩ (serStrArr xs)
      = ⟨0, false, false, none, acc ++ [serStrArr xs]⟩ := by
  show List.foldl (scanStep '[' ']') _ ('[' :: (commaJoin (xs.map serStr) ++ [']'])) = _
  rw [List.foldl_cons, sc_step_open0 acc, List.foldl_append,
    sc_elems xs hsafe 1 _ acc]
  simp only [List.foldl_cons, List.foldl_nil]
  rw [sc_step_close1 _ acc]
  have hcand : (['['] ++ commaJoin (xs.map serStr)) ++ [']'] = serStrArr xs := by
    simp [serStrArr]
  rw [hcand, jsonParse_serStrArr xs hne hsafe]
  simp

theorem sc_step_sep (acc : List (List Char)) (c : Char)
    (h1 : c ≠ '\"') (h2 : c ≠ '\\') (h3 : c ≠ '[') (h4 : c ≠ ']') :
    scanStep '[' ']' ⟨0, false, false, none, acc⟩ c
      = ⟨0, false, false, none, acc⟩ := by
  simp [scanStep, h1, h2, h3, h4]

theorem sc_fold_sep : ∀ (sep : List Char), sep.all sepSafe = true →
    ∀ (acc : List (List Char)),
      List.foldl (scanStep '[' ']') ⟨0, false, false, none, acc⟩ sep
        = ⟨0, false, false, none, acc⟩ := by
  intro sep
  induction sep with
  | nil => intro _ acc; rfl
  | cons c s' ih =>
    intro h acc
    rw [List.all_cons, Bool.and_eq_true] at h
    obtain ⟨h1, h2, _, _, h5, h6⟩ := sepSafe_spec c h.1
    rw [List.foldl_cons, sc_step_sep acc c h5 h6 h1 h2, ih h.2 acc]

/-- A scan whose opening delimiter never occurs finds nothing. -/
theorem sc_no_open (openC closeC : Char) :
    ∀ (s : List Char), openC ∉ s →
      ∀ (st : ScanSt), st.cur = none →
        (List.foldl (scanStep openC closeC) st s).acc = st.acc ∧
        (List.foldl (scanStep openC closeC) st s).cur = none := by
  intro s
  induction s with
  | nil => intro _ st hcur; exact ⟨rfl, hcur⟩
  | cons c s' ih =>
    intro h st hcur
    have hc : c ≠ openC := fun he => h (he ▸ List.mem_cons_self _ _)
    have hs' : openC ∉ s' := fun hm => h (List.mem_cons_of_mem _ hm)
    have hstep : (scanStep openC closeC st c).acc = st.acc ∧
        (scanStep openC closeC st c).cur = none := by
      cases st with
      | mk d i e cu ac =>
        simp only at hcur
        subst hcur
        constructor <;>
          simp [scanStep, hc, apply_ite (ScanSt.acc), apply_ite (ScanSt.cur)]
    rw [List.foldl_cons]
    obtain ⟨ha, hcu⟩ := ih hs' (scanStep openC closeC st c) hstep.2
    exact ⟨ha.trans hstep.1, hcu⟩

theorem serStr_no_lbrace (s : List Char) (h : s.all c2char = true) :
    '\x7b' ∉ serStr s := by
  intro hm
  have hm' : '\x7b' ∈ s := by simpa [serStr] using hm
  obtain ⟨_, hne⟩ := c2char_spec _ ((List.all_eq_true.mp h) _ hm')
  exact hne rfl

theorem commaJoin_strs_no_lbrace (xs : List (List Char))
    (h : ∀ s ∈ xs, s.all c2char = true) :
    '\x7b' ∉ commaJoin (xs.map serStr) := by
  induction xs with
  | nil => simp [commaJoin]
  | cons x xs' ih =>
    have hx := h x (List.mem_cons_self _ _)
    cases xs' with
    | nil =>
      rw [List.map_cons, List.map_nil, commaJoin_one]
      exact serStr_no_lbrace x hx
    | cons y ys =>
      simp only [List.map_cons, commaJoin_cons₂]
      intro hm
      rcases List.mem_append.mp hm with h1 | h1
      · exact serStr_no_lbrace x hx h1
      · rcases List.mem_cons.mp h1 with h2 | h2
        · exact absurd h2 (by decide)
        · have ih' := ih (fun s hs => h s (List.mem_cons_of_mem _ hs))
          simp only [List.map_cons] at ih'
          exact ih' h2

theorem serStrArr_no_lbrace (xs : List (List Char))
    (h : ∀ s ∈ xs, s.all c2char = true) :
    '\x7b' ∉ serStrArr xs := by
  intro hm
  rcases List.mem_cons.mp (by simpa [serStrArr] using hm :
      '\x7b' ∈ '[' :: (commaJoin (xs.map serStr) ++ [']'])) with h1 | h1
  · exact absurd h1 (by decide)
  · rcases List.mem_append.mp h1 with h2 | h2
    · exact commaJoin_strs_no_lbrace xs h h2
    · rcases List.mem_cons.mp h2 with h3 | h3
      · exact absurd h3 (by decide)
      · simp at h3

theorem sep_no_lbrace (sep : List Char) (h : sep.all sepSafe = true) :
    '\x7b' ∉ sep := by
  intro hm
  obtain ⟨_, _, hne, _, _, _⟩ := sepSafe_spec _ ((List.all_eq_true.mp h) _ hm)
  exact hne rfl

/-- The cleaning prologue is the identity on a bracketed payload. -/
theorem cleanResponse_id_bracket (M : List Char) :
    cleanResponse ('[' :: (M ++ [']'])) = '[' :: (M ++ [']']) := by
  unfold cleanResponse
  have htrim : jsTrim ('[' :: (M ++ [']'])) = '[' :: (M ++ [']']) := by
    rw [jsTrim_eq]
    have hdw : List.dropWhile (fun c => isWsChar c) ('[' :: (M ++ [']']))
        = '[' :: (M ++ [']']) := by
      simp [List.dropWhile_cons, isWsChar]
    rw [hdw]
    have h2 := dropTrail_cons_append (fun c => isWsChar c) M [] ']' (by decide) '['
    simpa using h2
  rw [htrim, stripLeading_id _ _ (by decide), stripTrailing_eq]
  have h3 := dropTrail_cons_append (fun c => !validEnder c) M [] ']' (by decide) '['
  simpa using h3

theorem escapeJsonChar_safe (c : Char) (h : safeChar c = true) :
    escapeJsonChar c = [c] := by
  obtain ⟨h32, hq, hb, _⟩ := safeChar_spec c h
  have hn : c ≠ '\n' := fun he => by subst he; simp at h32
  have hr : c ≠ '\r' := fun he => by subst he; simp at h32
  have ht : c ≠ '\t' := fun he => by subst he; simp at h32
  have h8 : ¬ c.toNat = 8 := by omega
  have h12 : ¬ c.toNat = 12 := by omega
  have hlt : ¬ c.toNat < 32 := by omega
  simp [escapeJsonChar, hq, hb, hn, hr, ht, h8, h12, hlt]

theorem stringifyStr_safe (s : List Char) (h : s.all safeChar = true) :
    stringifyStr s = serStr s := by
  suffices h2 : (s.map escapeJsonChar).flatten = s by
    simp [stringifyStr, serStr, h2]
  induction s with
  | nil => rfl
  | cons c s' ih =>
    rw [List.all_cons, Bool.and_eq_true] at h
    simp [escapeJsonChar_safe c h.1, ih h.2]

theorem stringifyList_strs (ys : List (List Char))
    (h : ∀ s ∈ ys, s.all safeChar = true) :
    stringifyList (ys.map Json.str) = ys.map serStr := by
  induction ys with
  | nil => rfl
  | cons y ys' ih =>
    simp only [List.map_cons, stringifyList, jsonStringify]
    rw [stringifyStr_safe y (h y (List.mem_cons_self _ _)),
      ih (fun s hs => h s (List.mem_cons_of_mem _ hs))]

theorem jsonStringify_strArr (ys : List (List Char))
    (h : ∀ s ∈ ys, s.all safeChar = true) :
    jsonStringify (Json.arr (ys.map Json.str)) = serStrArr ys := by
  simp only [jsonStringify, serStrArr]
  rw [stringifyList_strs ys h]

/-- C2 (amended): for two serialized arrays of unescaped strings,
concatenated with any separator text free of structural characters
(such as a "Part 2" marker), combineMultipleResponses returns the
single serialized array of all len(A)+len(B) elements, A's elements
first, each fragment's order preserved — and that output parses back to
exactly that array.  (For arrays of session OBJECTS the object pattern
fires first and the result keeps only the first object, as the
counterexample shows.) -/
theorem array_concat_amended (A B : List (List Char)) (sep : List Char)
    (hA : A ≠ []) (hB : B ≠ [])
    (hAc : ∀ s ∈ A, s.all c2char = true) (hBc : ∀ s ∈ B, s.all c2char = true)
    (hsep : sep.all sepSafe = true) :
    combineMultipleResponses (serStrArr A ++ sep ++ serStrArr B) = serStrArr (A ++ B) ∧
    jsonParse (combineMultipleResponses (serStrArr A ++ sep ++ serStrArr B))
      = some (Json.arr ((A ++ B).map Json.str)) ∧
    (A ++ B).length = A.length + B.length := by
  have hAsafe : ∀ s ∈ A, s.all safeChar = true := fun s hs => c2_all_safe s (hAc s hs)
  have hBsafe : ∀ s ∈ B, s.all safeChar = true := fun s hs => c2_all_safe s (hBc s hs)
  have hABc : ∀ s ∈ A ++ B, s.all safeChar = true := by
    intro s hs
    rcases List.mem_append.mp hs with h | h
    · exact hAsafe s h
    · exact hBsafe s h
  set P := serStrArr A ++ sep ++ serStrArr B with hP
  have hshape : P
      = '[' :: ((commaJoin (A.map serStr) ++ ']' :: (sep ++ '[' :: commaJoin (B.map serStr)))
          ++ [']']) := by
    rw [hP]
    simp [serStrArr]
  have hclean : cleanResponse P = P := by
    rw [hshape, cleanResponse_id_bracket]
  have hnolb : '\x7b' ∉ P := by
    rw [hP]
    intro hm
    rcases List.mem_append.mp hm with h1 | h1
    · rcases List.mem_append.mp h1 with h2 | h2
      · exact serStrArr_no_lbrace A hAc h2
      · exact sep_no_lbrace sep hsep h2
    · exact serStrArr_no_lbrace B hBc h1
  have hobj : extractMultipleJsonObjects P = [] := by
    unfold extractMultipleJsonObjects
    exact (sc_no_open '\x7b' '\x7d' _ hnolb scanInit rfl).1
  have harr : extractMultipleJsonArrays P = [serStrArr A, serStrArr B] := by
    unfold extractMultipleJsonArrays
    rw [hP, show scanInit = (⟨0, false, false, none, []⟩ : ScanSt) from rfl]
    rw [List.foldl_append, List.foldl_append, sc_arr A hA hAsafe [],
      sc_fold_sep sep hsep _, sc_arr B hB hBsafe _]
    rfl
  have hempty : P.isEmpty = false := by
    rw [hshape]
    rfl
  have hPne : ¬ P = [] := by
    rw [hshape]
    simp
  have hcja : combineJsonArrays [serStrArr A, serStrArr B] = serStrArr (A ++ B) := by
    unfold combineJsonArrays
    simp only [List.foldl_cons, List.foldl_nil]
    rw [jsonParse_serStrArr A hA hAsafe]
    simp only []
    rw [jsonParse_serStrArr B hB hBsafe]
    simp only [List.nil_append]
    rw [show List.map Json.str A ++ List.map Json.str B
        = (A ++ B).map Json.str from (List.map_append _ _ _).symm]
    exact jsonStringify_strArr (A ++ B) hABc
  have hcomb : combineMultipleResponses P = serStrArr (A ++ B) := by
    unfold combineMultipleResponses
    simp [hempty, hPne, hclean, hobj, harr, hcja]
  refine ⟨hcomb, ?_, by simp⟩
  rw [hcomb]
  exact jsonParse_serStrArr (A ++ B) (by cases A <;> simp_all) hABc

/-- Witness fragment A: a one-string array. -/
def exC2A : List (List Char) := [['a']]

/-- Witness fragment B: a one-string array. -/
def exC2B : List (List Char) := [['b']]

/-- Witness separator: a textual Part 2 marker. -/
def exC2sep : List Char := " Part 2: ".toList

/-- Witness for the amended C2 theorem: two one-element string arrays
joined by a Part 2 marker combine into the two-element array. -/
theorem array_concat_amended_witness :
    (exC2A ≠ [] ∧ exC2B ≠ [] ∧ (∀ s ∈ exC2A, s.all c2char = true) ∧
     (∀ s ∈ exC2B, s.all c2char = true) ∧ exC2sep.all sepSafe = true) ∧
    (combineMultipleResponses (serStrArr exC2A ++ exC2sep ++ serStrArr exC2B)
        = serStrArr (exC2A ++ exC2B) ∧
     jsonParse (combineMultipleResponses (serStrArr exC2A ++ exC2sep ++ serStrArr exC2B))
        = some (Json.arr ((exC2A ++ exC2B).map Json.str)) ∧
     (exC2A ++ exC2B).length = exC2A.length + exC2B.length) :=
  ⟨⟨by decide, by decide, by decide, by decide, by decide⟩,
   array_concat_amended exC2A exC2B exC2sep (by decide) (by decide) (by decide)
     (by decide) (by decide)⟩

end ConfAgent
